import Mathlib

/-!
Verification of the provider adapter and streaming-translation engine of the
one-hub gateway (Codex provider): parameter merge engine, header construction,
SSE streaming aggregation, system-message merging for the Responses dialect,
and the OAuth2 refresh loop.

Go maps (`map[string]interface{}`) are embedded as association lists with
first-match lookup; Go strings are embedded through the `List Char` data of
Lean strings.  `json.Unmarshal` / `json.Marshal` are abstracted as oracle
parameters or as pre-parsed structured inputs where noted.
-/

/-! ## String helpers (embeddings of the Go `strings` functions used) -/

/-- Embeds `strings.HasPrefix` on character lists: does `s` start with `pat`? -/
def listStarts : List Char → List Char → Bool
  | _, [] => true
  | [], _ :: _ => false
  | c :: cs, p :: ps => c == p && listStarts cs ps

/-- Embeds `strings.Contains` on character lists (substring occurrence). -/
def listHasSub (s pat : List Char) : Bool :=
  match s with
  | [] => listStarts [] pat
  | _ :: r => listStarts s pat || listHasSub r pat

/-- Embeds Go's `strings.HasPrefix` on strings. -/
def goStartsWith (s p : String) : Bool := listStarts s.data p.data

/-- Embeds Go's `strings.TrimPrefix`: drop `p` from the front when present. -/
def goTrimLead (s p : String) : String :=
  if goStartsWith s p then ⟨s.data.drop p.data.length⟩ else s

/-- White-space test used by `strings.TrimSpace` (restricted to the ASCII
space characters that occur in this code's inputs). -/
def isSpaceChar (c : Char) : Bool :=
  c == ' ' || c == '\t' || c == '\n' || c == '\r'

/-- Embeds Go's `strings.TrimSpace`. -/
def goTrimSpace (s : String) : String :=
  ⟨((s.data.dropWhile isSpaceChar).reverse.dropWhile isSpaceChar).reverse⟩

/-- Embeds Go's `strings.ToLower` (character-wise). -/
def goToLower (s : String) : String := ⟨s.data.map Char.toLower⟩

/-- Splitting on a single separator character, as `strings.Split` with a
one-character separator. -/
def splitCharAux (sep : Char) : List Char → List Char → List String
  | [], acc => [⟨acc.reverse⟩]
  | d :: ds, acc =>
      if d == sep then ⟨acc.reverse⟩ :: splitCharAux sep ds []
      else splitCharAux sep ds (d :: acc)

/-- Embeds Go's `strings.Split` for a one-character separator. -/
def goSplitChar (s : String) (sep : Char) : List String :=
  splitCharAux sep s.data []

/-- Embeds Go's `strings.Join`. -/
def goJoin (sep : String) : List String → String
  | [] => ""
  | [x] => x
  | x :: y :: xs => x ++ sep ++ goJoin sep (y :: xs)

/-! ## Parameter Merge Engine (one-api/providers/base `ApplyCustomParams`) -/

/-- A JSON-ish value as produced by `json.Unmarshal` into `interface{}`:
booleans, strings, numbers, arrays, and string-keyed objects. -/
inductive Val where
  | vNull : Val
  | vBool : Bool → Val
  | vStr : String → Val
  | vNum : Int → Val
  | vArr : List Val → Val
  | vObj : List (String × Val) → Val

/-- A Go `map[string]interface{}` as an association list. -/
abbrev Fields := List (String × Val)

/-- First-match lookup, embedding Go map access `m[k]`. -/
def lookupF : Fields → String → Option Val
  | [], _ => none
  | (k', v) :: rest, k => if k' = k then some v else lookupF rest k

/-- Embeds Go map assignment `m[k] = v`: replace the (first) binding of `k`
in place, or append a new binding. -/
def setKey : Fields → String → Val → Fields
  | [], k, v => [(k, v)]
  | (k', w) :: rest, k, v =>
      if k' = k then (k', v) :: rest else (k', w) :: setKey rest k v

/-- Embeds Go `delete(m, k)`. -/
def eraseKey (m : Fields) (k : String) : Fields :=
  m.filter (fun kv => decide (kv.1 ≠ k))

/-- Embeds `DeepMergeMap` from the source: copy `existing`, then for each key
of `new`, recursively merge when both values are objects, otherwise the new
value wins; absent keys are inserted. -/
def DeepMergeMap (existing new : Fields) : Fields :=
  match new with
  | [] => existing
  | (k, nv) :: rest =>
      match lookupF existing k, nv with
      | some (Val.vObj em), Val.vObj nm =>
          DeepMergeMap (setKey existing k (Val.vObj (DeepMergeMap em nm))) rest
      | some _, _ => DeepMergeMap (setKey existing k nv) rest
      | none, _ => DeepMergeMap (existing ++ [(k, nv)]) rest
termination_by sizeOf new
decreasing_by all_goals (simp <;> omega)

/-- Embeds `removeNestedParam`'s nested walk: follow all but the last path
segment through nested objects, then delete the last segment; stop silently
when an intermediate segment is missing or not an object. -/
def removePath : Fields → List String → Fields
  | m, [] => m
  | m, [k] => eraseKey m k
  | m, k :: k2 :: rest =>
      match lookupF m k with
      | some (Val.vObj sub) => setKey m k (Val.vObj (removePath sub (k2 :: rest)))
      | _ => m

/-- Embeds `removeNestedParam`: split the dot-delimited path; a one-segment
path deletes a top-level key, a longer path walks nested objects. -/
def removeNestedParam (requestMap : Fields) (paramPath : String) : Fields :=
  removePath requestMap (goSplitChar paramPath '.')

/-- The `remove_params` pass of `ApplyCustomParams`: apply `removeNestedParam`
for every string entry of the configured list. -/
def removeAllParams (requestMap : Fields) (params : List Val) : Fields :=
  params.foldl
    (fun acc p => match p with
      | Val.vStr s => removeNestedParam acc s
      | _ => acc)
    requestMap

/-- The `overwrite` flag extraction of `ApplyCustomParams` (only a stored
boolean counts). -/
def getOverwrite (customParams : Fields) : Bool :=
  match lookupF customParams "overwrite" with
  | some (Val.vBool b) => b
  | _ => false

/-- The `pre_add` guard of `ApplyCustomParams`: the Go comparison
`preAdd == true` holds only when the stored value is the boolean `true`. -/
def preAddTrue (customParams : Fields) : Bool :=
  match lookupF customParams "pre_add" with
  | some (Val.vBool true) => true
  | _ => false

/-- The `per_model` flag extraction of `ApplyCustomParams`. -/
def getPerModel (customParams : Fields) : Bool :=
  match lookupF customParams "per_model" with
  | some (Val.vBool b) => b
  | _ => false

/-- The per-model narrowing of `ApplyCustomParams`: when `per_model` is set,
use the object stored under the model name, or an empty set. -/
def effectiveParams (customParams : Fields) (modelName : String) : Fields :=
  if getPerModel customParams then
    match lookupF customParams modelName with
    | some (Val.vObj m) => m
    | some _ => []
    | none => []
  else customParams

/-- The key-application loop of `ApplyCustomParams`: skip the reserved keys,
overwrite or deep-merge/keep/insert according to the overwrite flag. -/
def mergeLoop (shouldOverwrite : Bool) : Fields → Fields → Fields
  | acc, [] => acc
  | acc, (k, v) :: rest =>
      let acc' : Fields :=
        if k = "stream" ∨ k = "overwrite" ∨ k = "per_model" ∨ k = "pre_add" then acc
        else if shouldOverwrite then setKey acc k v
        else
          match lookupF acc k, v with
          | some (Val.vObj em), Val.vObj nm => setKey acc k (Val.vObj (DeepMergeMap em nm))
          | some _, _ => acc
          | none, _ => setKey acc k v
      mergeLoop shouldOverwrite acc' rest

/-- Embeds `ApplyCustomParams` from the source: empty-set shortcut, overwrite
flag, `pre_add` guard, `per_model` narrowing, the `remove_params` pass, and
the key-application loop. -/
def ApplyCustomParams (requestMap : Fields) (customParams : Fields)
    (modelName : String) (skipPreAddCheck : Bool) : Fields :=
  if customParams.isEmpty then requestMap
  else if ¬skipPreAddCheck ∧ preAddTrue customParams then requestMap
  else
    let shouldOverwrite := getOverwrite customParams
    let customParamsModel := effectiveParams customParams modelName
    let afterRemove :=
      match lookupF customParamsModel "remove_params" with
      | some (Val.vArr l) => removeAllParams requestMap l
      | _ => requestMap
    mergeLoop shouldOverwrite afterRemove customParamsModel

/-! ## Lookup characterizations of the map operations -/

theorem lookup_setKey (m : Fields) (k : String) (v : Val) (q : String) :
    lookupF (setKey m k v) q = if k = q then some v else lookupF m q := by
  induction m with
  | nil => by_cases h : k = q <;> simp [setKey, lookupF, h]
  | cons kv rest ih =>
    obtain ⟨k', w⟩ := kv
    by_cases h1 : k' = k
    · subst h1
      by_cases h2 : k' = q <;> simp [setKey, lookupF, h2]
    · by_cases h2 : k' = q
      · subst h2
        have : ¬ k = k' := fun h => h1 h.symm
        simp [setKey, lookupF, h1, this]
      · simp [setKey, lookupF, h1, h2, ih]

theorem lookup_eraseKey (m : Fields) (k : String) (q : String) :
    lookupF (eraseKey m k) q = if k = q then none else lookupF m q := by
  induction m with
  | nil => by_cases h : k = q <;> simp [eraseKey, lookupF, h]
  | cons kv rest ih =>
    obtain ⟨k', w⟩ := kv
    by_cases h1 : k' = k
    · subst h1
      have h3 : ¬ (decide (k' ≠ k') = true) := by simp
      by_cases h2 : k' = q
      · subst h2
        simp [eraseKey, lookupF] at ih ⊢
        simpa using ih
      · simp [eraseKey, lookupF, h2] at ih ⊢
        exact ih
    · by_cases h2 : k' = q
      · subst h2
        have : ¬ k = k' := fun h => h1 h.symm
        simp [eraseKey, lookupF, h1, this]
      · simp [eraseKey, lookupF, h1, h2] at ih ⊢
        exact ih

theorem lookup_append (a b : Fields) (q : String) :
    lookupF (a ++ b) q =
      match lookupF a q with
      | some v => some v
      | none => lookupF b q := by
  induction a with
  | nil => simp [lookupF]
  | cons kv rest ih =>
    obtain ⟨k', w⟩ := kv
    by_cases h : k' = q <;> simp [lookupF, h, ih]

theorem mem_of_lookupF {m : Fields} {k : String} {v : Val}
    (h : lookupF m k = some v) : (k, v) ∈ m := by
  induction m with
  | nil => simp [lookupF] at h
  | cons kv rest ih =>
    obtain ⟨k', w⟩ := kv
    by_cases h1 : k' = k
    · subst h1
      simp [lookupF] at h
      subst h
      exact List.mem_cons_self _ _
    · simp [lookupF, h1] at h
      exact List.mem_cons_of_mem _ (ih h)

theorem sizeOf_lookupF {m : Fields} {k : String} {v : Val}
    (h : lookupF m k = some v) : sizeOf v < sizeOf m := by
  have hm := mem_of_lookupF h
  have := List.sizeOf_lt_of_mem hm
  simp at this
  omega

theorem sizeOf_mem_val {xs : List Val} {x : Val} (h : x ∈ xs) :
    sizeOf x < sizeOf xs := List.sizeOf_lt_of_mem h

/-- Strong induction on the size of a `Val`. -/
theorem valStrongInd {P : Val → Prop}
    (ih : ∀ v : Val, (∀ w : Val, sizeOf w < sizeOf v → P w) → P v) :
    ∀ v, P v := by
  have key : ∀ (n : Nat) (v : Val), sizeOf v ≤ n → P v := by
    intro n
    induction n with
    | zero => intro v hv; exact ih v (fun w hw => absurd (Nat.lt_of_lt_of_le hw hv) (by omega))
    | succ n ihn =>
      intro v hv
      exact ih v (fun w hw => ihn w (by omega))
  exact fun v => key (sizeOf v) v (Nat.le_refl _)

/-! ## Map equivalence (Go maps are unordered; association lists are compared
through lookups) and the erasure relation produced by parameter removal -/

/-- Extensional equivalence of embedded JSON values: objects are compared by
key lookup, arrays pointwise. -/
inductive VEquiv : Val → Val → Prop where
  | vnull : VEquiv .vNull .vNull
  | vbool (b : Bool) : VEquiv (.vBool b) (.vBool b)
  | vstr (s : String) : VEquiv (.vStr s) (.vStr s)
  | vnum (n : Int) : VEquiv (.vNum n) (.vNum n)
  | varr (xs ys : List Val) : xs.length = ys.length →
      (∀ i x y, xs.get? i = some x → ys.get? i = some y → VEquiv x y) →
      VEquiv (.vArr xs) (.vArr ys)
  | vobj (a b : Fields) :
      (∀ k, (lookupF a k).isSome = (lookupF b k).isSome) →
      (∀ k v w, lookupF a k = some v → lookupF b k = some w → VEquiv v w) →
      VEquiv (.vObj a) (.vObj b)

/-- Extensional equivalence of two bodies (top-level maps). -/
def FEquiv (a b : Fields) : Prop :=
  (∀ k, (lookupF a k).isSome = (lookupF b k).isSome) ∧
  (∀ k v w, lookupF a k = some v → lookupF b k = some w → VEquiv v w)

theorem VEquiv_refl : ∀ v : Val, VEquiv v v := by
  apply valStrongInd
  intro v ih
  match v with
  | .vNull => exact VEquiv.vnull
  | .vBool b => exact VEquiv.vbool b
  | .vStr s => exact VEquiv.vstr s
  | .vNum n => exact VEquiv.vnum n
  | .vArr xs =>
    refine VEquiv.varr xs xs rfl ?_
    intro i x y hx hy
    rw [hx] at hy
    cases hy
    have hmem : x ∈ xs := List.get?_mem hx
    have := sizeOf_mem_val hmem
    exact ih x (by simp; omega)
  | .vObj a =>
    refine VEquiv.vobj a a (fun k => rfl) ?_
    intro k v w hv hw
    rw [hv] at hw
    cases hw
    have := sizeOf_lookupF hv
    exact ih v (by simp; omega)

theorem FEquiv_refl (a : Fields) : FEquiv a a := by
  refine ⟨fun k => rfl, ?_⟩
  intro k v w hv hw
  rw [hv] at hw
  cases hw
  exact VEquiv_refl v

/-- `ErasesV a b`: `a` is `b` with some nested object entries deleted (the
effect of the `remove_params` pass); leaves are untouched. -/
inductive ErasesV : Val → Val → Prop where
  | same (v : Val) : ErasesV v v
  | obj (a b : Fields) :
      (∀ k, (lookupF a k).isSome = true → (lookupF b k).isSome = true) →
      (∀ k v w, lookupF a k = some v → lookupF b k = some w → ErasesV v w) →
      ErasesV (.vObj a) (.vObj b)

/-- Option-level erasure: a deleted entry, or a value-level erasure. -/
def ErasesO : Option Val → Option Val → Prop
  | none, _ => True
  | some v, some w => ErasesV v w
  | some _, none => False

theorem ErasesO_refl (ov : Option Val) : ErasesO ov ov := by
  cases ov with
  | none => trivial
  | some v => exact ErasesV.same v

theorem ErasesV_trans : ∀ {u v w : Val}, ErasesV u v → ErasesV v w → ErasesV u w := by
  intro u v w h1
  induction h1 generalizing w with
  | same _ => exact fun h2 => h2
  | obj a b hsome hpt ih =>
    intro h2
    cases h2 with
    | same _ => exact ErasesV.obj a b hsome hpt
    | obj _ c h2some h2pt =>
      refine ErasesV.obj a c ?_ ?_
      · intro k hk
        exact h2some k (hsome k hk)
      · intro k v' x hv hx
        have hbsome : (lookupF b k).isSome = true := hsome k (by simp [hv])
        obtain ⟨y, hy⟩ := Option.isSome_iff_exists.1 hbsome
        exact ih k v' y hv hy (h2pt k y x hy hx)

theorem ErasesO_trans {a b c : Option Val} (h1 : ErasesO a b) (h2 : ErasesO b c) :
    ErasesO a c := by
  cases a with
  | none => trivial
  | some v =>
    cases b with
    | none => exact absurd h1 (by simp [ErasesO])
    | some w =>
      cases c with
      | none => exact absurd h2 (by simp [ErasesO])
      | some x => exact ErasesV_trans h1 h2

/-! ## Per-key characterization of the `remove_params` pass -/

/-- The effect of one removal path on the value stored at the path's head key
(`tail` is the rest of the path). -/
def removeInVal (tail : List String) (ov : Option Val) : Option Val :=
  match tail with
  | [] => none
  | k2 :: rest =>
      match ov with
      | some (Val.vObj sub) => some (Val.vObj (removePath sub (k2 :: rest)))
      | _ => ov

/-- The effect of one `remove_params` entry on the value stored at key `q`. -/
def chainStep (q : String) (p : Val) (ov : Option Val) : Option Val :=
  match p with
  | Val.vStr s =>
      match goSplitChar s '.' with
      | [] => ov
      | k :: tail => if k = q then removeInVal tail ov else ov
  | _ => ov

/-- The combined effect of a `remove_params` list on the value at key `q`. -/
def removeValChain (q : String) : List Val → Option Val → Option Val
  | [], ov => ov
  | p :: rest, ov => removeValChain q rest (chainStep q p ov)

theorem lookup_removePath_cons (m : Fields) (k : String) (tail : List String) (q : String) :
    lookupF (removePath m (k :: tail)) q =
      if k = q then removeInVal tail (lookupF m k) else lookupF m q := by
  cases tail with
  | nil =>
    simp only [removePath, removeInVal]
    rw [lookup_eraseKey]
  | cons k2 rest =>
    simp only [removePath]
    cases hv : lookupF m k with
    | none =>
      by_cases h : k = q
      · subst h; simpa [removeInVal] using hv
      · simp [h]
    | some v =>
      cases v with
      | vObj sub =>
        rw [lookup_setKey]
        by_cases h : k = q <;> simp [h, removeInVal]
      | vNull =>
        by_cases h : k = q
        · subst h; simpa [removeInVal] using hv
        · simp [h]
      | vBool b =>
        by_cases h : k = q
        · subst h; simpa [removeInVal] using hv
        · simp [h]
      | vStr s =>
        by_cases h : k = q
        · subst h; simpa [removeInVal] using hv
        · simp [h]
      | vNum n =>
        by_cases h : k = q
        · subst h; simpa [removeInVal] using hv
        · simp [h]
      | vArr xs =>
        by_cases h : k = q
        · subst h; simpa [removeInVal] using hv
        · simp [h]

theorem lookup_removeNestedParam (m : Fields) (s : String) (q : String) :
    lookupF (removeNestedParam m s) q = chainStep q (.vStr s) (lookupF m q) := by
  simp only [removeNestedParam, chainStep]
  cases hsp : goSplitChar s '.' with
  | nil => simp [removePath]
  | cons k tail =>
    rw [lookup_removePath_cons]
    by_cases h : k = q
    · subst h; simp
    · simp [h]

theorem lookup_removeAllParams (m : Fields) (R : List Val) (q : String) :
    lookupF (removeAllParams m R) q = removeValChain q R (lookupF m q) := by
  induction R generalizing m with
  | nil => simp [removeAllParams, removeValChain]
  | cons p rest ih =>
    cases p with
    | vStr s =>
      have h1 : removeAllParams m (Val.vStr s :: rest)
          = removeAllParams (removeNestedParam m s) rest := by
        simp [removeAllParams]
      rw [h1, ih, lookup_removeNestedParam]
      simp [removeValChain]
    | vNull =>
      have h1 : removeAllParams m (Val.vNull :: rest) = removeAllParams m rest := by
        simp [removeAllParams]
      rw [h1, ih]; simp [removeValChain, chainStep]
    | vBool b =>
      have h1 : removeAllParams m (Val.vBool b :: rest) = removeAllParams m rest := by
        simp [removeAllParams]
      rw [h1, ih]; simp [removeValChain, chainStep]
    | vNum n =>
      have h1 : removeAllParams m (Val.vNum n :: rest) = removeAllParams m rest := by
        simp [removeAllParams]
      rw [h1, ih]; simp [removeValChain, chainStep]
    | vArr xs =>
      have h1 : removeAllParams m (Val.vArr xs :: rest) = removeAllParams m rest := by
        simp [removeAllParams]
      rw [h1, ih]; simp [removeValChain, chainStep]
    | vObj fs =>
      have h1 : removeAllParams m (Val.vObj fs :: rest) = removeAllParams m rest := by
        simp [removeAllParams]
      rw [h1, ih]; simp [removeValChain, chainStep]

/-! ## Removal produces erasures, and is idempotent -/

theorem erasesV_removePath : ∀ (path : List String) (sub : Fields),
    ErasesV (.vObj (removePath sub path)) (.vObj sub) := by
  intro path
  induction path with
  | nil => intro sub; exact ErasesV.same _
  | cons k tail ih =>
    intro sub
    cases tail with
    | nil =>
      refine ErasesV.obj _ _ ?_ ?_
      · intro q hq
        rw [lookup_removePath_cons] at hq
        by_cases h : k = q
        · simp [h, removeInVal] at hq
        · simpa [h] using hq
      · intro q v w hv hw
        rw [lookup_removePath_cons] at hv
        by_cases h : k = q
        · simp [h, removeInVal] at hv
        · simp [h] at hv
          rw [hv] at hw
          cases hw
          exact ErasesV.same v
    | cons k2 rest =>
      refine ErasesV.obj _ _ ?_ ?_
      · intro q hq
        rw [lookup_removePath_cons] at hq
        by_cases h : k = q
        · subst h
          cases hk : lookupF sub k with
          | none => rw [hk] at hq; simp [removeInVal] at hq
          | some v => simp [hk]
        · rwa [if_neg h] at hq
      · intro q v w hv hw
        rw [lookup_removePath_cons] at hv
        by_cases h : k = q
        · subst h
          rw [if_pos rfl, hw] at hv
          cases w with
          | vObj inner =>
            simp [removeInVal] at hv
            subst hv
            exact ih inner
          | vNull => simp [removeInVal] at hv; subst hv; exact ErasesV.same _
          | vBool b => simp [removeInVal] at hv; subst hv; exact ErasesV.same _
          | vStr s => simp [removeInVal] at hv; subst hv; exact ErasesV.same _
          | vNum n => simp [removeInVal] at hv; subst hv; exact ErasesV.same _
          | vArr xs => simp [removeInVal] at hv; subst hv; exact ErasesV.same _
        · rw [if_neg h, hw] at hv
          cases hv
          exact ErasesV.same _

theorem erasesO_removeInVal (tail : List String) (ov : Option Val) :
    ErasesO (removeInVal tail ov) ov := by
  cases tail with
  | nil => simp [removeInVal, ErasesO]
  | cons k2 rest =>
    cases ov with
    | none => simp [removeInVal, ErasesO]
    | some v =>
      cases v with
      | vObj sub => exact erasesV_removePath (k2 :: rest) sub
      | vNull => exact ErasesO_refl _
      | vBool b => exact ErasesO_refl _
      | vStr s => exact ErasesO_refl _
      | vNum n => exact ErasesO_refl _
      | vArr xs => exact ErasesO_refl _

theorem erasesO_chainStep (q : String) (p : Val) (ov : Option Val) :
    ErasesO (chainStep q p ov) ov := by
  cases p with
  | vStr s =>
    simp only [chainStep]
    cases goSplitChar s '.' with
    | nil => exact ErasesO_refl _
    | cons k tail =>
      by_cases h : k = q
      · simpa [h] using erasesO_removeInVal tail ov
      · simpa [h] using ErasesO_refl ov
  | vNull => exact ErasesO_refl _
  | vBool b => exact ErasesO_refl _
  | vNum n => exact ErasesO_refl _
  | vArr xs => exact ErasesO_refl _
  | vObj fs => exact ErasesO_refl _

theorem erasesO_removeValChain (q : String) (R : List Val) (ov : Option Val) :
    ErasesO (removeValChain q R ov) ov := by
  induction R generalizing ov with
  | nil => exact ErasesO_refl _
  | cons p rest ih =>
    simp only [removeValChain]
    exact ErasesO_trans (ih (chainStep q p ov)) (erasesO_chainStep q p ov)

theorem eraseKey_of_absent {m : Fields} {k : String} (h : lookupF m k = none) :
    eraseKey m k = m := by
  induction m with
  | nil => rfl
  | cons kv rest ih =>
    obtain ⟨k', w⟩ := kv
    by_cases h1 : k' = k
    · subst h1; simp [lookupF] at h
    · simp [lookupF, h1] at h
      simp [eraseKey, h1] at ih ⊢
      exact ih h

theorem setKey_self {m : Fields} {k : String} {v : Val} (h : lookupF m k = some v) :
    setKey m k v = m := by
  induction m with
  | nil => simp [lookupF] at h
  | cons kv rest ih =>
    obtain ⟨k', w⟩ := kv
    by_cases h1 : k' = k
    · subst h1
      simp [lookupF] at h
      subst h
      simp [setKey]
    · simp [lookupF, h1] at h
      simp [setKey, h1]
      exact ih h

/-- After a removal path has acted, walking the remaining path segments fails
or ends at a deleted key. -/
def pathGoneV : List String → Option Val → Prop
  | [], ov => ov = none
  | k2 :: rest, some (Val.vObj sub) => pathGoneV rest (lookupF sub k2)
  | _ :: _, _ => True

theorem pathGone_removeInVal : ∀ (tail : List String) (ov : Option Val),
    pathGoneV tail (removeInVal tail ov) := by
  intro tail
  induction tail with
  | nil => intro ov; simp [removeInVal, pathGoneV]
  | cons k2 rest ih =>
    intro ov
    cases ov with
    | none => simp [removeInVal, pathGoneV]
    | some v =>
      cases v with
      | vObj sub =>
        show pathGoneV (k2 :: rest) (some (Val.vObj (removePath sub (k2 :: rest))))
        show pathGoneV rest (lookupF (removePath sub (k2 :: rest)) k2)
        rw [lookup_removePath_cons, if_pos rfl]
        exact ih (lookupF sub k2)
      | vNull => simp [removeInVal, pathGoneV]
      | vBool b => simp [removeInVal, pathGoneV]
      | vStr s => simp [removeInVal, pathGoneV]
      | vNum n => simp [removeInVal, pathGoneV]
      | vArr xs => simp [removeInVal, pathGoneV]

theorem removeInVal_of_pathGone : ∀ (tail : List String) (ov : Option Val),
    pathGoneV tail ov → removeInVal tail ov = ov := by
  intro tail
  induction tail with
  | nil => intro ov h; rw [h]; rfl
  | cons k2 rest ih =>
    intro ov h
    cases ov with
    | none => rfl
    | some v =>
      cases v with
      | vObj sub =>
        have h' : pathGoneV rest (lookupF sub k2) := h
        show some (Val.vObj (removePath sub (k2 :: rest))) = some (Val.vObj sub)
        cases rest with
        | nil =>
          have : lookupF sub k2 = none := h'
          simp [removePath, eraseKey_of_absent this]
        | cons k3 rest' =>
          simp only [removePath]
          cases hk : lookupF sub k2 with
          | none => rfl
          | some u =>
            cases u with
            | vObj inner =>
              rw [hk] at h'
              have h2 := ih (some (Val.vObj inner)) h'
              simp [removeInVal] at h2
              dsimp only
              rw [h2, setKey_self hk]
            | vNull => rfl
            | vBool b => rfl
            | vStr s => rfl
            | vNum n => rfl
            | vArr xs => rfl
      | vNull => rfl
      | vBool b => rfl
      | vStr s => rfl
      | vNum n => rfl
      | vArr xs => rfl

theorem erasesO_lookup {a b : Fields}
    (h : ErasesV (.vObj a) (.vObj b)) (k : String) :
    ErasesO (lookupF a k) (lookupF b k) := by
  cases h with
  | same _ => exact ErasesO_refl _
  | obj _ _ hsome hpt =>
    cases hv : lookupF a k with
    | none => trivial
    | some v =>
      have : (lookupF b k).isSome = true := hsome k (by simp [hv])
      obtain ⟨w, hw⟩ := Option.isSome_iff_exists.1 this
      rw [hw]
      exact hpt k v w hv hw

theorem pathGone_mono : ∀ (tail : List String) {ov ov' : Option Val},
    ErasesO ov' ov → pathGoneV tail ov → pathGoneV tail ov' := by
  intro tail
  induction tail with
  | nil =>
    intro ov ov' he h
    cases ov' with
    | none => rfl
    | some v' =>
      rw [h] at he
      exact absurd he (by simp [ErasesO])
  | cons k2 rest ih =>
    intro ov ov' he h
    cases ov' with
    | none => trivial
    | some v' =>
      cases v' with
      | vObj a =>
        cases ov with
        | none => exact absurd he (by simp [ErasesO])
        | some w =>
          have hew : ErasesV (Val.vObj a) w := he
          cases hew with
          | same _ => exact h
          | obj _ b hsome hpt =>
            have h' : pathGoneV rest (lookupF b k2) := h
            exact ih (erasesO_lookup (ErasesV.obj a b hsome hpt) k2) h'
      | vNull => trivial
      | vBool b => trivial
      | vStr s => trivial
      | vNum n => trivial
      | vArr xs => trivial

/-- All removal paths of `R` addressing key `q` are already spent in `ov`. -/
def pathsGone (q : String) (R : List Val) (ov : Option Val) : Prop :=
  ∀ p ∈ R, ∀ s k tail, p = Val.vStr s → goSplitChar s '.' = k :: tail →
    k = q → pathGoneV tail ov

theorem chainStep_of_gone (q : String) (p : Val) (ov : Option Val)
    (h : ∀ s k tail, p = Val.vStr s → goSplitChar s '.' = k :: tail →
      k = q → pathGoneV tail ov) :
    chainStep q p ov = ov := by
  cases p with
  | vStr s =>
    simp only [chainStep]
    cases hsp : goSplitChar s '.' with
    | nil => rfl
    | cons k tail =>
      dsimp only
      by_cases hk : k = q
      · rw [if_pos hk]
        exact removeInVal_of_pathGone tail ov (h s k tail rfl hsp hk)
      · rw [if_neg hk]
  | vNull => rfl
  | vBool b => rfl
  | vNum n => rfl
  | vArr xs => rfl
  | vObj fs => rfl

theorem pathsGone_chain (q : String) (R : List Val) (ov : Option Val) :
    pathsGone q R (removeValChain q R ov) := by
  induction R generalizing ov with
  | nil => intro p hp; simp at hp
  | cons p rest ih =>
    intro p' hp' s k tail hps hsp hkq
    rcases List.mem_cons.1 hp' with h1 | h1
    · subst h1
      subst hps
      subst hkq
      show pathGoneV tail (removeValChain k rest (chainStep k (Val.vStr s) ov))
      have hstep : chainStep k (Val.vStr s) ov = removeInVal tail ov := by
        simp [chainStep, hsp]
      rw [hstep]
      exact pathGone_mono tail
        (erasesO_removeValChain k rest (removeInVal tail ov))
        (pathGone_removeInVal tail ov)
    · exact ih (chainStep q p ov) p' h1 s k tail hps hsp hkq

theorem chain_of_pathsGone (q : String) (R : List Val) (ov : Option Val)
    (h : pathsGone q R ov) : removeValChain q R ov = ov := by
  induction R with
  | nil => rfl
  | cons p rest ih =>
    have hstep : chainStep q p ov = ov :=
      chainStep_of_gone q p ov
        (fun s k tail hps hsp hkq => h p (List.mem_cons_self _ _) s k tail hps hsp hkq)
    show removeValChain q rest (chainStep q p ov) = ov
    rw [hstep]
    exact ih (fun p' hp' => h p' (List.mem_cons_of_mem _ hp'))

theorem chain_idem (q : String) (R : List Val) (ov : Option Val) :
    removeValChain q R (removeValChain q R ov) = removeValChain q R ov :=
  chain_of_pathsGone q R _ (pathsGone_chain q R ov)

/-! ## Well-formed maps (no duplicate keys, as Go maps guarantee) -/

/-- `k` does not occur in the key list. -/
def keyFree (k : String) : List String → Bool
  | [] => true
  | k' :: ks => !(k' == k) && keyFree k ks

/-- Pairwise distinct keys. -/
def keysND : List String → Bool
  | [] => true
  | k :: ks => keyFree k ks && keysND ks

/-- Deep well-formedness: every object level has pairwise distinct keys.
Go maps cannot hold duplicate keys, so this is the domain of the embedding. -/
inductive WFv : Val → Prop where
  | null : WFv .vNull
  | bool (b : Bool) : WFv (.vBool b)
  | str (s : String) : WFv (.vStr s)
  | num (n : Int) : WFv (.vNum n)
  | arr (xs : List Val) : (∀ x, x ∈ xs → WFv x) → WFv (.vArr xs)
  | obj (fs : Fields) : keysND (fs.map Prod.fst) = true →
      (∀ kv, kv ∈ fs → WFv kv.2) → WFv (.vObj fs)

/-- Deep well-formedness of a body map. -/
def WFf (fs : Fields) : Prop := WFv (.vObj fs)

theorem WFf_keysND {fs : Fields} (h : WFf fs) : keysND (fs.map Prod.fst) = true := by
  cases h with
  | obj _ hk _ => exact hk

theorem WFf_lookup {fs : Fields} {k : String} {v : Val}
    (h : WFf fs) (hl : lookupF fs k = some v) : WFv v := by
  cases h with
  | obj _ _ hv => exact hv (k, v) (mem_of_lookupF hl)

theorem WFf_nil : WFf [] := WFv.obj [] rfl (by intro kv h; simp at h)

theorem lookup_of_keyFree {m : Fields} {k : String}
    (h : keyFree k (m.map Prod.fst) = true) : lookupF m k = none := by
  induction m with
  | nil => rfl
  | cons kv rest ih =>
    obtain ⟨k', v⟩ := kv
    rw [List.map_cons] at h
    simp only [keyFree, Bool.and_eq_true, Bool.not_eq_true'] at h
    obtain ⟨h1, h2⟩ := h
    have hne : ¬ k' = k := by
      intro he
      rw [he] at h1
      simp at h1
    simp [lookupF, hne]
    exact ih h2

/-! ## Lookup characterization of `DeepMergeMap` and the key loop -/

/-- The per-key result of `DeepMergeMap` as a function of both lookups. -/
def mergeView (avo bvo : Option Val) : Option Val :=
  match avo, bvo with
  | some (Val.vObj ao), some (Val.vObj bo) => some (Val.vObj (DeepMergeMap ao bo))
  | _, some w => some w
  | some v, none => some v
  | none, none => none

theorem mergeView_none (avo : Option Val) : mergeView avo none = avo := by
  cases avo with
  | none => rfl
  | some v => cases v <;> rfl

theorem lookup_DeepMergeMap : ∀ (bf af : Fields),
    keysND (bf.map Prod.fst) = true → ∀ q,
    lookupF (DeepMergeMap af bf) q = mergeView (lookupF af q) (lookupF bf q) := by
  intro bf
  induction bf with
  | nil =>
    intro af _ q
    simp only [DeepMergeMap]
    exact (mergeView_none _).symm
  | cons kv rest ih =>
    obtain ⟨k, nv⟩ := kv
    intro af hnd q
    rw [List.map_cons] at hnd
    simp only [keysND, Bool.and_eq_true] at hnd
    obtain ⟨hkf, hrest⟩ := hnd
    have hrestk : lookupF rest k = none := lookup_of_keyFree hkf
    cases haf : lookupF af k with
    | none =>
      have hunf : DeepMergeMap af ((k, nv) :: rest) = DeepMergeMap (af ++ [(k, nv)]) rest := by
        cases nv <;> simp only [DeepMergeMap, haf]
      rw [hunf, ih _ hrest q, lookup_append]
      by_cases hq : k = q
      · subst hq
        rw [haf, hrestk, mergeView_none]
        simp only [lookupF, if_pos rfl]
        simp [mergeView]
      · have h1 : lookupF [(k, nv)] q = none := by simp [lookupF, hq]
        rw [h1]
        have h2 : lookupF ((k, nv) :: rest) q = lookupF rest q := by simp [lookupF, hq]
        rw [h2]
        cases hafq : lookupF af q <;> rfl
    | some v =>
      have hunf : ∃ v', DeepMergeMap af ((k, nv) :: rest) = DeepMergeMap (setKey af k v') rest ∧
          mergeView (some v) (some nv) = some v' := by
        cases v with
        | vObj em =>
          cases nv with
          | vObj nm =>
            exact ⟨Val.vObj (DeepMergeMap em nm), by rw [DeepMergeMap.eq_def]; dsimp only; rw [haf], rfl⟩
          | vNull => exact ⟨Val.vNull, by rw [DeepMergeMap.eq_def]; dsimp only; rw [haf], rfl⟩
          | vBool b => exact ⟨Val.vBool b, by rw [DeepMergeMap.eq_def]; dsimp only; rw [haf], rfl⟩
          | vStr s => exact ⟨Val.vStr s, by rw [DeepMergeMap.eq_def]; dsimp only; rw [haf], rfl⟩
          | vNum n => exact ⟨Val.vNum n, by rw [DeepMergeMap.eq_def]; dsimp only; rw [haf], rfl⟩
          | vArr xs => exact ⟨Val.vArr xs, by rw [DeepMergeMap.eq_def]; dsimp only; rw [haf], rfl⟩
        | vNull =>
          exact ⟨nv, by cases nv <;> (rw [DeepMergeMap.eq_def]; dsimp only; rw [haf]), by cases nv <;> rfl⟩
        | vBool b =>
          exact ⟨nv, by cases nv <;> (rw [DeepMergeMap.eq_def]; dsimp only; rw [haf]), by cases nv <;> rfl⟩
        | vStr s =>
          exact ⟨nv, by cases nv <;> (rw [DeepMergeMap.eq_def]; dsimp only; rw [haf]), by cases nv <;> rfl⟩
        | vNum n =>
          exact ⟨nv, by cases nv <;> (rw [DeepMergeMap.eq_def]; dsimp only; rw [haf]), by cases nv <;> rfl⟩
        | vArr xs =>
          exact ⟨nv, by cases nv <;> (rw [DeepMergeMap.eq_def]; dsimp only; rw [haf]), by cases nv <;> rfl⟩
      obtain ⟨v', hunf, hview⟩ := hunf
      rw [hunf, ih _ hrest q, lookup_setKey]
      by_cases hq : k = q
      · subst hq
        rw [if_pos rfl, hrestk, mergeView_none, haf]
        have h2 : lookupF ((k, nv) :: rest) k = some nv := by simp [lookupF]
        rw [h2, hview]
      · rw [if_neg hq]
        have h2 : lookupF ((k, nv) :: rest) q = lookupF rest q := by simp [lookupF, hq]
        rw [h2]

theorem mergeLoop_cons (ov : Bool) (af : Fields) (k : String) (v : Val) (rest : Fields) :
    mergeLoop ov af ((k, v) :: rest) = mergeLoop ov
      (if k = "stream" ∨ k = "overwrite" ∨ k = "per_model" ∨ k = "pre_add" then af
       else if ov then setKey af k v
       else match lookupF af k, v with
         | some (Val.vObj em), Val.vObj nm => setKey af k (Val.vObj (DeepMergeMap em nm))
         | some _, _ => af
         | none, _ => setKey af k v) rest := rfl

theorem lookup_mergeStep_ne {af : Fields} {k : String} {v : Val} {q : String}
    (hkq : ¬ k = q) (ov : Bool) :
    lookupF
      (if k = "stream" ∨ k = "overwrite" ∨ k = "per_model" ∨ k = "pre_add" then af
       else if ov then setKey af k v
       else match lookupF af k, v with
         | some (Val.vObj em), Val.vObj nm => setKey af k (Val.vObj (DeepMergeMap em nm))
         | some _, _ => af
         | none, _ => setKey af k v) q = lookupF af q := by
  by_cases hres : k = "stream" ∨ k = "overwrite" ∨ k = "per_model" ∨ k = "pre_add"
  · rw [if_pos hres]
  · rw [if_neg hres]
    cases ov with
    | true => simp only [if_true]; rw [lookup_setKey, if_neg hkq]
    | false =>
      simp only [Bool.false_eq_true, if_false]
      cases haf : lookupF af k with
      | none => rw [lookup_setKey, if_neg hkq]
      | some u =>
        cases u with
        | vObj em =>
          cases v with
          | vObj nm => rw [lookup_setKey, if_neg hkq]
          | vNull => rfl
          | vBool b => rfl
          | vStr s => rfl
          | vNum n => rfl
          | vArr xs => rfl
        | vNull => cases v <;> rfl
        | vBool b => cases v <;> rfl
        | vStr s => cases v <;> rfl
        | vNum n => cases v <;> rfl
        | vArr xs => cases v <;> rfl

theorem lookup_mergeLoop_reserved (ov : Bool) : ∀ (M af : Fields) (q : String),
    (q = "stream" ∨ q = "overwrite" ∨ q = "per_model" ∨ q = "pre_add") →
    lookupF (mergeLoop ov af M) q = lookupF af q := by
  intro M
  induction M with
  | nil => intro af q _; rfl
  | cons kv rest ih =>
    obtain ⟨k, v⟩ := kv
    intro af q hq
    rw [mergeLoop_cons]
    by_cases hkres : k = "stream" ∨ k = "overwrite" ∨ k = "per_model" ∨ k = "pre_add"
    · rw [if_pos hkres]
      exact ih af q hq
    · have hkq : ¬ k = q := by
        intro he; subst he; exact hkres hq
      rw [ih _ q hq, lookup_mergeStep_ne hkq ov]

/-- The per-key result of the non-overwrite key loop as a function of the
body's and the parameter set's lookups. -/
def loopView (avo mvo : Option Val) : Option Val :=
  match avo, mvo with
  | _, none => avo
  | some (Val.vObj em), some (Val.vObj nm) => some (Val.vObj (DeepMergeMap em nm))
  | some v, some _ => some v
  | none, some nv => some nv

theorem loopView_none (avo : Option Val) : loopView avo none = avo := by
  cases avo with
  | none => rfl
  | some v => cases v <;> rfl

theorem lookup_mergeLoop_false : ∀ (M af : Fields) (q : String),
    keysND (M.map Prod.fst) = true →
    ¬ (q = "stream" ∨ q = "overwrite" ∨ q = "per_model" ∨ q = "pre_add") →
    lookupF (mergeLoop false af M) q = loopView (lookupF af q) (lookupF M q) := by
  intro M
  induction M with
  | nil => intro af q _ _; exact (loopView_none _).symm
  | cons kv rest ih =>
    obtain ⟨k, v⟩ := kv
    intro af q hnd hres
    rw [List.map_cons] at hnd
    simp only [keysND, Bool.and_eq_true] at hnd
    obtain ⟨hkf, hrest⟩ := hnd
    have hrestk : lookupF rest k = none := lookup_of_keyFree hkf
    rw [mergeLoop_cons]
    by_cases hkres : k = "stream" ∨ k = "overwrite" ∨ k = "per_model" ∨ k = "pre_add"
    · rw [if_pos hkres, ih _ q hrest hres]
      have hkq : ¬ k = q := by
        intro he; subst he; exact hres hkres
      have h2 : lookupF ((k, v) :: rest) q = lookupF rest q := by simp [lookupF, hkq]
      rw [h2]
    · rw [if_neg hkres]
      simp only [Bool.false_eq_true, if_false]
      by_cases hkq : k = q
      · subst hkq
        have h2 : lookupF ((k, v) :: rest) k = some v := by simp [lookupF]
        rw [h2, ih _ k hrest hres, hrestk, loopView_none]
        cases haf : lookupF af k with
        | none => rw [lookup_setKey, if_pos rfl]; rfl
        | some u =>
          cases u with
          | vObj em =>
            cases v with
            | vObj nm => rw [lookup_setKey, if_pos rfl]; rfl
            | vNull => rw [haf]; rfl
            | vBool b => rw [haf]; rfl
            | vStr s => rw [haf]; rfl
            | vNum n => rw [haf]; rfl
            | vArr xs => rw [haf]; rfl
          | vNull => rw [haf]; cases v <;> rfl
          | vBool b => rw [haf]; cases v <;> rfl
          | vStr s => rw [haf]; cases v <;> rfl
          | vNum n => rw [haf]; cases v <;> rfl
          | vArr xs => rw [haf]; cases v <;> rfl
      · have h2 : lookupF ((k, v) :: rest) q = lookupF rest q := by simp [lookupF, hkq]
        rw [h2, ih _ q hrest hres]
        have h3 := @lookup_mergeStep_ne af k v q hkq false
        rw [if_neg hkres] at h3
        simp only [Bool.false_eq_true, if_false] at h3
        rw [h3]

theorem erasesV_obj_fields {a b : Fields} (h : ErasesV (.vObj a) (.vObj b)) :
    (∀ k, (lookupF a k).isSome = true → (lookupF b k).isSome = true) ∧
    (∀ k v w, lookupF a k = some v → lookupF b k = some w → ErasesV v w) := by
  cases h with
  | same _ =>
    refine ⟨fun k h => h, ?_⟩
    intro k v w hv hw
    rw [hv] at hw
    cases hw
    exact ErasesV.same v
  | obj _ _ hsome hpt => exact ⟨hsome, hpt⟩

/-- New values win: deep-merging an erasure of `bf` back with `bf` restores a
map equivalent to `bf`. -/
theorem DM_restore : ∀ (n : Nat) (bf af : Fields),
    sizeOf bf ≤ n →
    (∀ k, (lookupF af k).isSome = true → (lookupF bf k).isSome = true) →
    (∀ k v w, lookupF af k = some v → lookupF bf k = some w → ErasesV v w) →
    WFf bf →
    VEquiv (.vObj (DeepMergeMap af bf)) (.vObj bf) := by
  intro n
  induction n with
  | zero =>
    intro bf af hs _ _ _
    exfalso
    cases bf with
    | nil => simp at hs
    | cons a l => simp at hs
  | succ n ihn =>
    intro bf af hs hsome hpt hwf
    have hchar := lookup_DeepMergeMap bf af (WFf_keysND hwf)
    refine VEquiv.vobj _ _ ?_ ?_
    · intro q
      rw [hchar q]
      cases hbq : lookupF bf q with
      | none =>
        rw [mergeView_none]
        cases haq : lookupF af q with
        | none => simp
        | some v =>
          have h1 := hsome q (by simp [haq])
          rw [hbq] at h1
          simp at h1
      | some w =>
        cases haq : lookupF af q with
        | none => cases w <;> simp [mergeView]
        | some v => cases v <;> cases w <;> simp [mergeView]
    · intro q v w hv hw
      rw [hchar q, hw] at hv
      cases haq : lookupF af q with
      | none =>
        rw [haq] at hv
        have hvw : v = w := by cases w <;> (simp [mergeView] at hv; exact hv.symm)
        subst hvw
        exact VEquiv_refl v
      | some u =>
        rw [haq] at hv
        cases u with
        | vObj ao =>
          cases w with
          | vObj bo =>
            have hv' : v = Val.vObj (DeepMergeMap ao bo) := by
              simp [mergeView] at hv
              exact hv.symm
            subst hv'
            have he : ErasesV (Val.vObj ao) (Val.vObj bo) := hpt q _ _ haq hw
            obtain ⟨hsome2, hpt2⟩ := erasesV_obj_fields he
            have hsz : sizeOf bo ≤ n := by
              have h1 := sizeOf_lookupF hw
              simp at h1
              omega
            exact ihn bo ao hsz hsome2 hpt2 (WFf_lookup hwf hw)
          | vNull =>
            have hvw : v = Val.vNull := by simp [mergeView] at hv; exact hv.symm
            subst hvw; exact VEquiv_refl _
          | vBool b =>
            have hvw : v = Val.vBool b := by simp [mergeView] at hv; exact hv.symm
            subst hvw; exact VEquiv_refl _
          | vStr s =>
            have hvw : v = Val.vStr s := by simp [mergeView] at hv; exact hv.symm
            subst hvw; exact VEquiv_refl _
          | vNum m =>
            have hvw : v = Val.vNum m := by simp [mergeView] at hv; exact hv.symm
            subst hvw; exact VEquiv_refl _
          | vArr xs =>
            have hvw : v = Val.vArr xs := by simp [mergeView] at hv; exact hv.symm
            subst hvw; exact VEquiv_refl _
        | vNull =>
          have hvw : v = w := by cases w <;> (simp [mergeView] at hv; exact hv.symm)
          subst hvw; exact VEquiv_refl _
        | vBool b =>
          have hvw : v = w := by cases w <;> (simp [mergeView] at hv; exact hv.symm)
          subst hvw; exact VEquiv_refl _
        | vStr s =>
          have hvw : v = w := by cases w <;> (simp [mergeView] at hv; exact hv.symm)
          subst hvw; exact VEquiv_refl _
        | vNum m =>
          have hvw : v = w := by cases w <;> (simp [mergeView] at hv; exact hv.symm)
          subst hvw; exact VEquiv_refl _
        | vArr xs =>
          have hvw : v = w := by cases w <;> (simp [mergeView] at hv; exact hv.symm)
          subst hvw; exact VEquiv_refl _

/-! ## Idempotence of the non-overwrite merge (claim C3) -/

/-- The removal list configured in a parameter set (empty unless an array). -/
def removeListOf (M : Fields) : List Val :=
  match lookupF M "remove_params" with
  | some (Val.vArr l) => l
  | _ => []

/-- The `remove_params` stage of `ApplyCustomParams` as applied to a body. -/
def applyRemovePass (X M : Fields) : Fields :=
  match lookupF M "remove_params" with
  | some (Val.vArr l) => removeAllParams X l
  | _ => X

theorem lookup_applyRemovePass (X M : Fields) (q : String) :
    lookupF (applyRemovePass X M) q = removeValChain q (removeListOf M) (lookupF X q) := by
  unfold applyRemovePass removeListOf
  cases hr : lookupF M "remove_params" with
  | none => rfl
  | some v =>
    cases v with
    | vArr l => exact lookup_removeAllParams X l q
    | vNull => rfl
    | vBool b => rfl
    | vStr s => rfl
    | vNum n => rfl
    | vObj fs => rfl

theorem applyCP_unfold (X P : Fields) (model : String)
    (hPne : P.isEmpty = false) (hpre : preAddTrue P = false) :
    ApplyCustomParams X P model false =
      mergeLoop (getOverwrite P) (applyRemovePass X (effectiveParams P model))
        (effectiveParams P model) := by
  unfold ApplyCustomParams applyRemovePass
  rw [hPne]
  simp [hpre]

theorem WFf_effectiveParams {P : Fields} (hwf : WFf P) (model : String) :
    WFf (effectiveParams P model) := by
  unfold effectiveParams
  by_cases hpm : getPerModel P = true
  · rw [if_pos hpm]
    cases hl : lookupF P model with
    | none => exact WFf_nil
    | some v =>
      cases v with
      | vObj m => exact WFf_lookup hwf hl
      | vNull => exact WFf_nil
      | vBool b => exact WFf_nil
      | vStr s => exact WFf_nil
      | vNum n => exact WFf_nil
      | vArr xs => exact WFf_nil
  · rw [if_neg hpm]
    exact hwf

/-- The claim's side condition: the body holds no nested map colliding with a
nested map of the (effective) parameter set. -/
def noColliding (body M : Fields) : Bool :=
  M.all (fun kv =>
    match lookupF body kv.1, kv.2 with
    | some (Val.vObj _), Val.vObj _ => false
    | _, _ => true)

theorem noColliding_spec {body M : Fields} (h : noColliding body M = true)
    {q : String} {nm : Fields} (hM : lookupF M q = some (Val.vObj nm))
    {bo : Fields} (hB : lookupF body q = some (Val.vObj bo)) : False := by
  have hmem := mem_of_lookupF hM
  have h2 := List.all_eq_true.1 h _ hmem
  dsimp at h2
  rw [hB] at h2
  simp at h2

/-- C3: applying the same non-overwrite, non-pre_add parameter set twice
yields a body extensionally equal (as unordered maps) to applying it once,
for any well-formed parameter set and any body with no colliding nested maps. -/
theorem c3_applyCustomParams_idempotent (B P : Fields) (model : String)
    (hov : getOverwrite P = false)
    (hpre : preAddTrue P = false)
    (hwf : WFf P)
    (hnc : noColliding B (effectiveParams P model) = true) :
    FEquiv
      (ApplyCustomParams (ApplyCustomParams B P model false) P model false)
      (ApplyCustomParams B P model false) := by
  cases hPe : P.isEmpty with
  | true =>
    have h1 : ∀ X : Fields, ApplyCustomParams X P model false = X := by
      intro X
      unfold ApplyCustomParams
      rw [hPe]
      simp
    rw [h1, h1]
    exact FEquiv_refl B
  | false =>
    have happ : ∀ X : Fields, ApplyCustomParams X P model false
        = mergeLoop false (applyRemovePass X (effectiveParams P model))
            (effectiveParams P model) := by
      intro X
      rw [applyCP_unfold X P model hPe hpre, hov]
    simp only [happ]
    have hwfM : WFf (effectiveParams P model) := WFf_effectiveParams hwf model
    have hndM := WFf_keysND hwfM
    generalize hMdef : effectiveParams P model = M at *
    generalize hA1def : mergeLoop false (applyRemovePass B M) M = A1
    have key : ∀ q, (lookupF (mergeLoop false (applyRemovePass A1 M) M) q = lookupF A1 q) ∨
        (∃ v w, lookupF (mergeLoop false (applyRemovePass A1 M) M) q = some v ∧
          lookupF A1 q = some w ∧ VEquiv v w) := by
      intro q
      by_cases hres : q = "stream" ∨ q = "overwrite" ∨ q = "per_model" ∨ q = "pre_add"
      · left
        have h1 : lookupF A1 q = removeValChain q (removeListOf M) (lookupF B q) := by
          rw [← hA1def, lookup_mergeLoop_reserved false M _ q hres, lookup_applyRemovePass]
        have h2 : lookupF (mergeLoop false (applyRemovePass A1 M) M) q
            = removeValChain q (removeListOf M) (lookupF A1 q) := by
          rw [lookup_mergeLoop_reserved false M _ q hres, lookup_applyRemovePass]
        rw [h2, h1, chain_idem]
      · have h1 : lookupF A1 q
            = loopView (removeValChain q (removeListOf M) (lookupF B q)) (lookupF M q) := by
          rw [← hA1def, lookup_mergeLoop_false M _ q hndM hres, lookup_applyRemovePass]
        have h2 : lookupF (mergeLoop false (applyRemovePass A1 M) M) q
            = loopView (removeValChain q (removeListOf M) (lookupF A1 q)) (lookupF M q) := by
          rw [lookup_mergeLoop_false M _ q hndM hres, lookup_applyRemovePass]
        cases hMq : lookupF M q with
        | none =>
          left
          rw [hMq] at h1 h2
          rw [loopView_none] at h1 h2
          rw [h2, h1, chain_idem]
        | some nv =>
          rw [hMq] at h1 h2
          cases hB0 : removeValChain q (removeListOf M) (lookupF B q) with
          | some v =>
            left
            rw [hB0] at h1
            have hview : loopView (some v) (some nv) = some v := by
              cases v with
              | vObj em =>
                cases nv with
                | vObj nm =>
                  exfalso
                  have herB := erasesO_removeValChain q (removeListOf M) (lookupF B q)
                  rw [hB0] at herB
                  cases hBq : lookupF B q with
                  | none =>
                    rw [hBq] at herB
                    exact absurd herB (by simp [ErasesO])
                  | some w =>
                    rw [hBq] at herB
                    have herB' : ErasesV (Val.vObj em) w := herB
                    cases herB' with
                    | same _ => exact noColliding_spec hnc hMq hBq
                    | obj _ b hs2 hp2 => exact noColliding_spec hnc hMq hBq
                | vNull => rfl
                | vBool b => rfl
                | vStr s => rfl
                | vNum n => rfl
                | vArr xs => rfl
              | vNull => cases nv <;> rfl
              | vBool b => cases nv <;> rfl
              | vStr s => cases nv <;> rfl
              | vNum n => cases nv <;> rfl
              | vArr xs => cases nv <;> rfl
            rw [hview] at h1
            have hA1c : removeValChain q (removeListOf M) (lookupF A1 q) = some v := by
              rw [h1, ← hB0, chain_idem, hB0]
            rw [h2, hA1c, hview, h1]
          | none =>
            rw [hB0] at h1
            have hA1v : lookupF A1 q = some nv := by
              rw [h1]
              cases nv <;> rfl
            cases hc : removeValChain q (removeListOf M) (some nv) with
            | none =>
              left
              rw [h2, hA1v, hc]
              cases nv <;> rfl
            | some v' =>
              have herase : ErasesV v' nv := by
                have h3 := erasesO_removeValChain q (removeListOf M) (some nv)
                rw [hc] at h3
                exact h3
              cases herase with
              | same _ =>
                cases hnvshape : nv with
                | vObj bo =>
                  subst hnvshape
                  right
                  refine ⟨Val.vObj (DeepMergeMap bo bo), Val.vObj bo, ?_, hA1v, ?_⟩
                  · rw [h2, hA1v, hc]
                    rfl
                  · refine DM_restore (sizeOf bo) bo bo (Nat.le_refl _) (fun k h => h) ?_ ?_
                    · intro k v w hv hw
                      rw [hv] at hw
                      cases hw
                      exact ErasesV.same v
                    · exact WFf_lookup hwfM hMq
                | vNull =>
                  subst hnvshape
                  left
                  rw [h2, hA1v, hc]
                  rfl
                | vBool b =>
                  subst hnvshape
                  left
                  rw [h2, hA1v, hc]
                  rfl
                | vStr s =>
                  subst hnvshape
                  left
                  rw [h2, hA1v, hc]
                  rfl
                | vNum n =>
                  subst hnvshape
                  left
                  rw [h2, hA1v, hc]
                  rfl
                | vArr xs =>
                  subst hnvshape
                  left
                  rw [h2, hA1v, hc]
                  rfl
              | obj a b hs2 hp2 =>
                right
                refine ⟨Val.vObj (DeepMergeMap a b), Val.vObj b, ?_, hA1v, ?_⟩
                · rw [h2, hA1v, hc]
                  rfl
                · exact DM_restore (sizeOf b) b a (Nat.le_refl _) hs2 hp2
                    (WFf_lookup hwfM hMq)
    constructor
    · intro q
      rcases key q with h | ⟨v, w, h2, h1, _⟩
      · rw [h]
      · rw [h1, h2]
        rfl
    · intro q v w hv hw
      rcases key q with h | ⟨v', w', h2, h1, hvw⟩
      · rw [h] at hv
        rw [hv] at hw
        cases hw
        exact VEquiv_refl _
      · rw [h2] at hv
        rw [h1] at hw
        cases hv
        cases hw
        exact hvw

theorem c3_witness :
    getOverwrite [("y", Val.vNum 2)] = false ∧ preAddTrue [("y", Val.vNum 2)] = false ∧
    WFf [("y", Val.vNum 2)] ∧
    noColliding [("x", Val.vNum 1)] (effectiveParams [("y", Val.vNum 2)] "m") = true ∧
    FEquiv
      (ApplyCustomParams (ApplyCustomParams [("x", Val.vNum 1)] [("y", Val.vNum 2)] "m" false)
        [("y", Val.vNum 2)] "m" false)
      (ApplyCustomParams [("x", Val.vNum 1)] [("y", Val.vNum 2)] "m" false) := by
  have hwf : WFf [("y", Val.vNum 2)] := by
    refine WFv.obj _ rfl ?_
    intro kv h
    rw [List.mem_singleton] at h
    subst h
    exact WFv.num 2
  exact ⟨rfl, rfl, hwf, rfl,
    c3_applyCustomParams_idempotent [("x", Val.vNum 1)] [("y", Val.vNum 2)] "m" rfl rfl hwf rfl⟩

/-! ## Removal precedes addition (claim C4) -/

/-- Two-level nested lookup (`body["a"]["b"]` when `body["a"]` is an object). -/
def lookupPath2 (m : Fields) (k1 k2 : String) : Option Val :=
  match lookupF m k1 with
  | some (Val.vObj sub) => lookupF sub k2
  | _ => none

/-- C4: a parameter set carrying `remove_params=["a.b"]` together with an
added nested value at `a.b` leaves the added value in the final body: the
removal pass runs on the pre-existing body before the keys are applied. -/
theorem c4_remove_before_add (B : Fields) (model : String) (v : Val)
    (hB : lookupF B "a" = none ∨ ∃ m0, lookupF B "a" = some (Val.vObj m0)) :
    lookupPath2
      (ApplyCustomParams B
        [("remove_params", Val.vArr [Val.vStr "a.b"]), ("a", Val.vObj [("b", v)])]
        model false) "a" "b" = some v := by
  rw [applyCP_unfold B
      [("remove_params", Val.vArr [Val.vStr "a.b"]), ("a", Val.vObj [("b", v)])] model rfl rfl]
  have heff : effectiveParams
      [("remove_params", Val.vArr [Val.vStr "a.b"]), ("a", Val.vObj [("b", v)])] model
      = [("remove_params", Val.vArr [Val.vStr "a.b"]), ("a", Val.vObj [("b", v)])] := rfl
  rw [heff]
  have hovr : getOverwrite
      [("remove_params", Val.vArr [Val.vStr "a.b"]), ("a", Val.vObj [("b", v)])] = false := rfl
  rw [hovr]
  unfold lookupPath2
  rw [lookup_mergeLoop_false
        [("remove_params", Val.vArr [Val.vStr "a.b"]), ("a", Val.vObj [("b", v)])]
        (applyRemovePass B
          [("remove_params", Val.vArr [Val.vStr "a.b"]), ("a", Val.vObj [("b", v)])])
        "a" rfl (by decide),
      lookup_applyRemovePass]
  have hR : removeListOf
      [("remove_params", Val.vArr [Val.vStr "a.b"]), ("a", Val.vObj [("b", v)])]
      = [Val.vStr "a.b"] := rfl
  have hPa : lookupF
      [("remove_params", Val.vArr [Val.vStr "a.b"]), ("a", Val.vObj [("b", v)])] "a"
      = some (Val.vObj [("b", v)]) := by
    simp [lookupF]
  rw [hR, hPa]
  have hchain : ∀ x : Option Val,
      removeValChain "a" [Val.vStr "a.b"] x = removeInVal ["b"] x := by
    intro x
    show removeValChain "a" [] (chainStep "a" (Val.vStr "a.b") x) = removeInVal ["b"] x
    have hsp : goSplitChar "a.b" '.' = ["a", "b"] := rfl
    simp [removeValChain, chainStep, hsp]
  rw [hchain]
  rcases hB with hB | ⟨m0, hB⟩
  · rw [hB]
    rfl
  · rw [hB]
    have h1 : removeInVal ["b"] (some (Val.vObj m0)) = some (Val.vObj (eraseKey m0 "b")) := rfl
    rw [h1]
    have h2 : loopView (some (Val.vObj (eraseKey m0 "b"))) (some (Val.vObj [("b", v)]))
        = some (Val.vObj (DeepMergeMap (eraseKey m0 "b") [("b", v)])) := rfl
    rw [h2]
    dsimp only
    rw [lookup_DeepMergeMap [("b", v)] (eraseKey m0 "b") rfl "b", lookup_eraseKey]
    simp only [if_pos rfl]
    have h3 : lookupF [("b", v)] "b" = some v := by simp [lookupF]
    rw [h3]
    cases v <;> rfl

theorem c4_witness :
    (lookupF [("a", Val.vObj [("b", Val.vNum 1)])] "a" = none ∨
      ∃ m0, lookupF [("a", Val.vObj [("b", Val.vNum 1)])] "a" = some (Val.vObj m0)) ∧
    lookupPath2
      (ApplyCustomParams [("a", Val.vObj [("b", Val.vNum 1)])]
        [("remove_params", Val.vArr [Val.vStr "a.b"]), ("a", Val.vObj [("b", Val.vNum 7)])]
        "gpt-5" false) "a" "b" = some (Val.vNum 7) :=
  ⟨Or.inr ⟨[("b", Val.vNum 1)], rfl⟩,
    c4_remove_before_add [("a", Val.vObj [("b", Val.vNum 1)])] "gpt-5" (Val.vNum 7)
      (Or.inr ⟨[("b", Val.vNum 1)], rfl⟩)⟩

/-! ## The "stream" key and the merge (claim C10) -/

/-- C10 counterexample: with `remove_params=["stream"]` the merge deletes the
body's pre-existing `stream` entry, so the streaming flag is not left
unchanged by `ApplyCustomParams`. -/
theorem c10_counterexample :
    lookupF (ApplyCustomParams [("stream", Val.vBool true)]
        [("remove_params", Val.vArr [Val.vStr "stream"])] "m" false) "stream" = none ∧
    lookupF [("stream", Val.vBool true)] "stream" = some (Val.vBool true) := by
  constructor
  · rw [applyCP_unfold [("stream", Val.vBool true)]
        [("remove_params", Val.vArr [Val.vStr "stream"])] "m" rfl rfl]
    rw [lookup_mergeLoop_reserved _ _ _ "stream" (Or.inl rfl), lookup_applyRemovePass]
    rfl
  · rfl

theorem chain_id_of_no_head (q : String) (R : List Val) (ov : Option Val)
    (h : ∀ p ∈ R, ∀ s k tail, p = Val.vStr s → goSplitChar s '.' = k :: tail → k ≠ q) :
    removeValChain q R ov = ov := by
  induction R with
  | nil => rfl
  | cons p rest ih =>
    have hstep : chainStep q p ov = ov := by
      cases p with
      | vStr s =>
        simp only [chainStep]
        cases hsp : goSplitChar s '.' with
        | nil => rfl
        | cons k tail =>
          dsimp only
          rw [if_neg (h (Val.vStr s) (List.mem_cons_self _ _) s k tail rfl hsp)]
      | vNull => rfl
      | vBool b => rfl
      | vNum n => rfl
      | vArr xs => rfl
      | vObj fs => rfl
    show removeValChain q rest (chainStep q p ov) = ov
    rw [hstep]
    exact ih (fun p' hp' => h p' (List.mem_cons_of_mem _ hp'))

/-- C10 amended: `ApplyCustomParams` never copies a `stream` key from the
extra parameters (it is skipped with the other reserved keys), so the body's
`stream` entry is unchanged — provided no `remove_params` path addresses the
`stream` key, since the removal pass can still delete it. -/
theorem c10_amended_stream_unchanged (B P : Fields) (model : String) (skip : Bool)
    (hR : ∀ p ∈ removeListOf (effectiveParams P model), ∀ s k tail,
        p = Val.vStr s → goSplitChar s '.' = k :: tail → k ≠ "stream") :
    lookupF (ApplyCustomParams B P model skip) "stream" = lookupF B "stream" := by
  by_cases hPe : P.isEmpty = true
  · have h1 : ApplyCustomParams B P model skip = B := by
      unfold ApplyCustomParams
      rw [if_pos hPe]
    rw [h1]
  · by_cases hpa : ¬skip = true ∧ preAddTrue P = true
    · have h1 : ApplyCustomParams B P model skip = B := by
        unfold ApplyCustomParams
        rw [if_neg hPe, if_pos hpa]
      rw [h1]
    · have hunf : ApplyCustomParams B P model skip
          = mergeLoop (getOverwrite P) (applyRemovePass B (effectiveParams P model))
              (effectiveParams P model) := by
        unfold ApplyCustomParams applyRemovePass
        rw [if_neg hPe, if_neg hpa]
      rw [hunf, lookup_mergeLoop_reserved _ _ _ "stream" (Or.inl rfl),
        lookup_applyRemovePass, chain_id_of_no_head "stream" _ _ hR]

theorem c10_amended_witness :
    lookupF (ApplyCustomParams [("stream", Val.vBool true)]
        [("temperature", Val.vNum 1), ("stream", Val.vBool false)] "m" false) "stream"
      = lookupF [("stream", Val.vBool true)] "stream" := by
  refine c10_amended_stream_unchanged [("stream", Val.vBool true)]
    [("temperature", Val.vNum 1), ("stream", Val.vBool false)] "m" false ?_
  intro p hp
  have hRnil : removeListOf (effectiveParams
      [("temperature", Val.vNum 1), ("stream", Val.vBool false)] "m") = [] := rfl
  rw [hRnil] at hp
  simp at hp

/-! ## Header construction (providers/codex: base.go, chat.go, responses.go)

Headers are a Go `map[string]string`; the gin context's client headers are a
function from name to value (empty string when absent), and the two
JSON-configured maps (`ModelHeaders`, `channel.Other`) enter as their parse
results (`none` = absent or unparsable). -/

abbrev Hdrs := List (String × String)

def hLookup : Hdrs → String → Option String
  | [], _ => none
  | (k', v) :: rest, k => if k' = k then some v else hLookup rest k

def hSet : Hdrs → String → String → Hdrs
  | [], k, v => [(k, v)]
  | (k', w) :: rest, k, v =>
      if k' = k then (k', v) :: rest else (k', w) :: hSet rest k v

/-- Go map read `m[k]` (empty string when absent). -/
def hGetD (h : Hdrs) (k : String) : String := (hLookup h k).getD ""

/-- Go `_, exists := m[k]`. -/
def hContains (h : Hdrs) (k : String) : Bool := (hLookup h k).isSome

theorem hLookup_hSet (m : Hdrs) (k v q : String) :
    hLookup (hSet m k v) q = if k = q then some v else hLookup m q := by
  induction m with
  | nil => by_cases h : k = q <;> simp [hSet, hLookup, h]
  | cons kv rest ih =>
    obtain ⟨k', w⟩ := kv
    by_cases h1 : k' = k
    · subst h1
      by_cases h2 : k' = q <;> simp [hSet, hLookup, h2]
    · by_cases h2 : k' = q
      · subst h2
        have : ¬ k = k' := fun h => h1 h.symm
        simp [hSet, hLookup, h1, this]
      · simp [hSet, hLookup, h1, h2, ih]

/-- The allow-list of `filterAndPassthroughClientHeaders`. -/
def codexAllowedKeys : List String := ["version", "openai-beta", "session_id", "x-session-id"]

/-- Embeds `filterAndPassthroughClientHeaders`: copy non-empty allow-listed
client headers. -/
def filterAndPassthroughClientHeaders (client : String → String) (headers : Hdrs) : Hdrs :=
  codexAllowedKeys.foldl
    (fun h k => if client k ≠ "" then hSet h k (client k) else h) headers

/-- Embeds `BaseProvider.CommonRequestHeaders`: copy the client Content-Type
and Accept when a request context exists, default an empty Content-Type to
application/json, then apply the channel's ModelHeaders overrides. -/
def CommonRequestHeaders (hasCtx : Bool) (client : String → String)
    (modelHeaders : Option Hdrs) (headers : Hdrs) : Hdrs :=
  let h1 := if hasCtx then
      hSet (hSet headers "Content-Type" (client "Content-Type")) "Accept" (client "Accept")
    else headers
  let h2 := if hGetD h1 "Content-Type" = "" then hSet h1 "Content-Type" "application/json" else h1
  match modelHeaders with
  | some mh => mh.foldl (fun h kv => hSet h kv.1 kv.2) h2
  | none => h2

/-- Embeds the successful-token path of `getRequestHeadersInternal`:
passthrough, channel overrides, then the required headers written
unconditionally (Authorization, Content-Type, and the account id when set). -/
def getRequestHeadersInternal (hasCtx : Bool) (client : String → String)
    (modelHeaders : Option Hdrs) (token : String) (accountID : String) : Hdrs :=
  let h1 := if hasCtx then filterAndPassthroughClientHeaders client [] else ([] : Hdrs)
  let h2 := CommonRequestHeaders hasCtx client modelHeaders h1
  let h3 := hSet h2 "Authorization" ("Bearer " ++ token)
  let h4 := hSet h3 "Content-Type" "application/json"
  if accountID ≠ "" then hSet h4 "chatgpt-account-id" accountID else h4

def codexDefaultUA : String := "codex_cli_rs/0.38.0 (Ubuntu 22.4.0; x86_64) WindowsTerminal"

/-- Go's fill-if-missing idiom `if _, exists := m[k]; !exists { m[k] = v }`. -/
def fillIfMissing (h : Hdrs) (key val : String) : Hdrs :=
  if hContains h key then h else hSet h key val

/-- Embeds `applyDefaultHeaders`: fill Host, User-Agent and Accept only when
missing; a non-empty custom user agent from `channel.Other` returns early,
skipping the Accept fill (as the Go `return` does). -/
def applyDefaultHeaders (customUA : Option String) (headers : Hdrs) : Hdrs :=
  let h1 := fillIfMissing headers "Host" "chatgpt.com"
  if hContains h1 "User-Agent" then fillIfMissing h1 "Accept" "application/json"
  else
    match customUA with
    | some ua =>
        if ua ≠ "" then hSet h1 "User-Agent" ua
        else fillIfMissing (hSet h1 "User-Agent" codexDefaultUA) "Accept" "application/json"
    | none => fillIfMissing (hSet h1 "User-Agent" codexDefaultUA) "Accept" "application/json"

/-- Embeds the header portion of `getResponsesRequest`: internal headers,
Codex defaults, then Accept forced according to the stream flag. -/
def getResponsesRequestHeaders (hasCtx : Bool) (client : String → String)
    (modelHeaders : Option Hdrs) (token accountID : String) (customUA : Option String)
    (stream : Bool) : Hdrs :=
  let h := applyDefaultHeaders customUA
    (getRequestHeadersInternal hasCtx client modelHeaders token accountID)
  if stream then hSet h "Accept" "text/event-stream" else hSet h "Accept" "application/json"

/-- C5 counterexample: a channel-level ModelHeaders override sets an explicit
Content-Type, yet the required-header stage overwrites it unconditionally
with application/json — an explicit value is clobbered by a later fill. -/
theorem c5_counterexample :
    hLookup (CommonRequestHeaders false (fun _ => "")
        (some [("Content-Type", "text/custom")]) []) "Content-Type" = some "text/custom" ∧
    hLookup (getRequestHeadersInternal false (fun _ => "")
        (some [("Content-Type", "text/custom")]) "tok" "") "Content-Type"
      = some "application/json" ∧
    ("application/json" : String) ≠ "text/custom" :=
  ⟨rfl, rfl, by decide⟩

theorem lookup_fillIfMissing {h : Hdrs} {k : String} (key val : String)
    (hk : hContains h k = true) :
    hLookup (fillIfMissing h key val) k = hLookup h k ∧
    hContains (fillIfMissing h key val) k = true := by
  unfold fillIfMissing
  by_cases hc : hContains h key = true
  · rw [if_pos hc]
    exact ⟨rfl, hk⟩
  · rw [if_neg hc]
    have hne : ¬ key = k := by
      intro he
      rw [he] at hc
      exact hc hk
    constructor
    · rw [hLookup_hSet, if_neg hne]
    · unfold hContains
      rw [hLookup_hSet, if_neg hne]
      exact hk

/-- C5 amended: the Codex default headers (Host, User-Agent, Accept) are
filled only when missing — `applyDefaultHeaders` never changes a key that is
already present.  (By `c5_counterexample`, the same is not true of the
required headers Content-Type/Authorization/account-id, which are written
unconditionally.) -/
theorem c5_amended_defaults_no_clobber (headers : Hdrs) (customUA : Option String)
    (k : String) (hk : hContains headers k = true) :
    hLookup (applyDefaultHeaders customUA headers) k = hLookup headers k := by
  unfold applyDefaultHeaders
  obtain ⟨hh1, hc1⟩ := lookup_fillIfMissing "Host" "chatgpt.com" hk
  by_cases hua : hContains (fillIfMissing headers "Host" "chatgpt.com") "User-Agent" = true
  · rw [if_pos hua]
    obtain ⟨ha, _⟩ := lookup_fillIfMissing "Accept" "application/json" hc1
    rw [ha, hh1]
  · rw [if_neg hua]
    have hneUA : ¬ ("User-Agent" : String) = k := by
      intro he
      rw [he] at hua
      exact hua hc1
    have hsetUA : ∀ ua : String,
        hLookup (hSet (fillIfMissing headers "Host" "chatgpt.com") "User-Agent" ua) k
          = hLookup headers k := by
      intro ua
      rw [hLookup_hSet, if_neg hneUA, hh1]
    have hcUA : ∀ ua : String,
        hContains (hSet (fillIfMissing headers "Host" "chatgpt.com") "User-Agent" ua) k
          = true := by
      intro ua
      unfold hContains
      rw [hLookup_hSet, if_neg hneUA]
      exact hc1
    cases customUA with
    | none =>
      obtain ⟨ha, _⟩ := lookup_fillIfMissing "Accept" "application/json" (hcUA codexDefaultUA)
      rw [ha, hsetUA]
    | some ua =>
      dsimp only
      by_cases hune : ua ≠ ""
      · rw [if_pos hune]
        exact hsetUA ua
      · rw [if_neg hune]
        obtain ⟨ha, _⟩ := lookup_fillIfMissing "Accept" "application/json"
          (hcUA codexDefaultUA)
        rw [ha, hsetUA]

theorem c5_amended_witness :
    hContains [("User-Agent", "my-agent")] "User-Agent" = true ∧
    hLookup (applyDefaultHeaders none [("User-Agent", "my-agent")]) "User-Agent"
      = hLookup [("User-Agent", "my-agent")] "User-Agent" :=
  ⟨rfl, c5_amended_defaults_no_clobber [("User-Agent", "my-agent")] none "User-Agent" rfl⟩

/-! ## Chat streaming aggregation (providers/codex/chat.go)

`json.Unmarshal` of a stream payload is abstracted as a `parse` oracle from
payload text to the parsed structure.  The chat chunk sent over the data
channel is marshalled then unmarshalled by `collectStreamResponse`; this
pair is modelled by passing the chunk structure itself.  The concurrent
handler/collector pipeline is sequentialized: the channel delivers in FIFO
order and the shared `Usage` is read only after the stream ends, so the
final usage equals the fold over all lines. -/

structure Usage where
  promptTokens : Int
  completionTokens : Int
  totalTokens : Int
deriving Repr, DecidableEq

structure ResponsesUsage where
  inputTokens : Int
  outputTokens : Int
  totalTokens : Int
deriving Repr, DecidableEq

/-- The fields of `OpenAIResponsesResponses` this pipeline reads. -/
structure ResponsesPayload where
  id : String
  status : String
  usage : Option ResponsesUsage
deriving Repr, DecidableEq

/-- The dynamically typed `Delta interface{}` field: a string or another
JSON value. -/
inductive DeltaVal where
  | str : String → DeltaVal
  | other : DeltaVal
deriving Repr, DecidableEq

/-- The fields of `OpenAIResponsesStreamResponses` this pipeline reads. -/
structure ResponsesStreamEvent where
  etype : String
  response : Option ResponsesPayload
  delta : Option DeltaVal
deriving Repr, DecidableEq

structure ChatStreamChoiceDelta where
  content : String
deriving Repr, DecidableEq

/-- The dynamically typed `FinishReason interface{}` field. -/
inductive FinishVal where
  | str : String → FinishVal
  | other : FinishVal
deriving Repr, DecidableEq

structure ChatStreamChoice where
  index : Int
  delta : ChatStreamChoiceDelta
  finishReason : Option FinishVal
deriving Repr, DecidableEq

structure ChatCompletionStreamResponse where
  id : String
  object : String
  created : Int
  model : String
  choices : List ChatStreamChoice
deriving Repr, DecidableEq

/-- Embeds `convertResponsesStreamToChatStream` (the Go model fallback
`if model == "" { model = h.Request.Model }` re-reads the same field and is
the identity). -/
def convertResponsesStreamToChatStream (requestModel : String)
    (responsesStream : ResponsesStreamEvent) (delta : String) :
    ChatCompletionStreamResponse :=
  let responseID :=
    match responsesStream.response with
    | some r => r.id
    | none => ""
  { id := responseID
    object := "chat.completion.chunk"
    created := 0
    model := requestModel
    choices := [{ index := 0, delta := { content := delta }, finishReason := none }] }

/-- Embeds `CodexStreamHandler.HandlerStream` on one raw line: returns the
updated shared usage and the chunks sent to the data channel. -/
def HandlerStream (parse : String → Option ResponsesStreamEvent)
    (requestModel : String) (usage : Usage) (rawLine : String) :
    Usage × List ChatCompletionStreamResponse :=
  if rawLine.data.isEmpty then (usage, [])
  else if ¬ goStartsWith rawLine "data:" then (usage, [])
  else
    let data2 := goTrimSpace (goTrimLead rawLine "data:")
    if data2 = "[DONE]" then (usage, [])
    else
      match parse data2 with
      | none => (usage, [])
      | some ev =>
        if ev.etype = "response.completed" then
          match ev.response with
          | some r =>
            (match r.usage with
             | some u =>
                ({ promptTokens := u.inputTokens
                   completionTokens := u.outputTokens
                   totalTokens := u.totalTokens }, [])
             | none => (usage, []))
          | none => (usage, [])
        else if ev.etype = "response.output_text.delta" then
          match ev.delta with
          | some (DeltaVal.str d) =>
              (usage, [convertResponsesStreamToChatStream requestModel ev d])
          | _ => (usage, [])
        else (usage, [])

structure ChatCompletionMessage where
  role : String
  content : String
deriving Repr, DecidableEq

structure ChatCompletionChoice where
  index : Int
  message : ChatCompletionMessage
  finishReason : String
deriving Repr, DecidableEq

structure ChatCompletionResponse where
  id : String
  object : String
  created : Int
  model : String
  choices : List ChatCompletionChoice
  usage : Usage
deriving Repr, DecidableEq

/-- The accumulator of `collectStreamResponse`'s read loop. -/
structure CollectSt where
  fullContent : String
  responseID : String
  model : String
  finishReason : String
deriving Repr, DecidableEq

/-- One iteration of `collectStreamResponse`'s read loop on a parsed chunk. -/
def collectStep (st : CollectSt) (chunk : ChatCompletionStreamResponse) : CollectSt :=
  let st1 := if st.responseID = "" ∧ chunk.id ≠ "" then { st with responseID := chunk.id } else st
  let st2 := if chunk.model ≠ "" then { st1 with model := chunk.model } else st1
  match chunk.choices with
  | [] => st2
  | choice :: _ =>
      let st3 :=
        if choice.delta.content ≠ "" then
          { st2 with fullContent := st2.fullContent ++ choice.delta.content }
        else st2
      match choice.finishReason with
      | some (FinishVal.str fr) =>
          if fr ≠ "" then { st3 with finishReason := fr } else st3
      | _ => st3

/-- How the stream terminates: data channel closed, the benign EOF from the
error channel, or a real stream error. -/
inductive StreamEnd where
  | closed
  | eofErr
  | failure (msg : String)
deriving Repr, DecidableEq

/-- Embeds `collectStreamResponse`: fold the chunks, then build the
aggregated response (a channel close and EOF both reach `buildResponse`; a
real error aborts with `stream_read_failed`).  The shared usage written by
the handler is read at build time. -/
def collectStreamResponse (chunks : List ChatCompletionStreamResponse)
    (endc : StreamEnd) (requestModel : String) (finalUsage : Usage) (now : Int) :
    Except String ChatCompletionResponse :=
  match endc with
  | StreamEnd.failure _ => Except.error "stream_read_failed"
  | _ =>
    let st := chunks.foldl collectStep
      { fullContent := "", responseID := "", model := requestModel, finishReason := "stop" }
    Except.ok
      { id := st.responseID
        object := "chat.completion"
        created := now
        model := st.model
        choices := [{ index := 0
                      message := { role := "assistant", content := st.fullContent }
                      finishReason := st.finishReason }]
        usage := finalUsage }

/-- The non-streamed Chat path: `HandlerStream` consumes every raw line,
then `collectStreamResponse` aggregates the emitted chunks with the usage
the handler wrote. -/
def runCodexChatAggregation (parse : String → Option ResponsesStreamEvent)
    (requestModel : String) (lines : List String) (endc : StreamEnd) (now : Int) :
    Except String ChatCompletionResponse :=
  let out := lines.foldl
    (fun acc line =>
      let r := HandlerStream parse requestModel acc.1 line
      (r.1, acc.2 ++ r.2))
    (({ promptTokens := 0, completionTokens := 0, totalTokens := 0 } : Usage),
      ([] : List ChatCompletionStreamResponse))
  collectStreamResponse out.2 endc requestModel out.1 now

/-- C1: a stream of a content delta "A", a content delta "B" and a terminal
completed event with usage total 5, followed by end-of-stream, aggregates to
a response whose message content is exactly "AB" and whose total-tokens
counter is exactly 5. -/
theorem c1_chat_aggregation_deterministic
    (parse : String → Option ResponsesStreamEvent)
    (now i o : Int) (rid st : String)
    (hA : parse "deltaA-json" = some
      { etype := "response.output_text.delta", response := none,
        delta := some (DeltaVal.str "A") })
    (hB : parse "deltaB-json" = some
      { etype := "response.output_text.delta", response := none,
        delta := some (DeltaVal.str "B") })
    (hC : parse "completed-json" = some
      { etype := "response.completed",
        response := some
          { id := rid, status := st,
            usage := some { inputTokens := i, outputTokens := o, totalTokens := 5 } },
        delta := none }) :
    runCodexChatAggregation parse "gpt-5"
      ["data: deltaA-json", "data: deltaB-json", "data: completed-json"]
      StreamEnd.eofErr now
    = Except.ok
      { id := "", object := "chat.completion", created := now, model := "gpt-5",
        choices := [{ index := 0
                      message := { role := "assistant", content := "AB" }
                      finishReason := "stop" }],
        usage := { promptTokens := i, completionTokens := o, totalTokens := 5 } } := by
  have e1 : goTrimSpace (goTrimLead "data: deltaA-json" "data:") = "deltaA-json" := rfl
  have e2 : goTrimSpace (goTrimLead "data: deltaB-json" "data:") = "deltaB-json" := rfl
  have e3 : goTrimSpace (goTrimLead "data: completed-json" "data:") = "completed-json" := rfl
  unfold runCodexChatAggregation
  simp only [List.foldl]
  unfold HandlerStream
  simp only [e1, e2, e3, hA, hB, hC]
  rfl

theorem c1_witness :
    ∃ parse : String → Option ResponsesStreamEvent,
      runCodexChatAggregation parse "gpt-5"
        ["data: deltaA-json", "data: deltaB-json", "data: completed-json"]
        StreamEnd.eofErr 0
      = Except.ok
        { id := "", object := "chat.completion", created := 0, model := "gpt-5",
          choices := [{ index := 0
                        message := { role := "assistant", content := "AB" }
                        finishReason := "stop" }],
          usage := { promptTokens := 2, completionTokens := 3, totalTokens := 5 } } := by
  refine ⟨fun s =>
    if s = "deltaA-json" then
      some { etype := "response.output_text.delta", response := none,
             delta := some (DeltaVal.str "A") }
    else if s = "deltaB-json" then
      some { etype := "response.output_text.delta", response := none,
             delta := some (DeltaVal.str "B") }
    else if s = "completed-json" then
      some { etype := "response.completed",
             response := some
               { id := "resp_1", status := "completed",
                 usage := some { inputTokens := 2, outputTokens := 3, totalTokens := 5 } },
             delta := none }
    else none, ?_⟩
  exact c1_chat_aggregation_deterministic _ 0 2 3 "resp_1" "completed"
    (by simp) (by simp) (by simp)

/-! ## Responses streaming passthrough and aggregation
(providers/codex/responses.go) -/

/-- Embeds `strings.HasSuffix`. -/
def goEndsWith (s suffix : String) : Bool :=
  listStarts s.data.reverse suffix.data.reverse

/-- The mutable fields of `CodexResponsesStreamHandler`. -/
structure RespHandlerState where
  eventBuffer : String
  eventType : String
deriving Repr, DecidableEq

/-- Embeds `HandlerResponsesStream` on one raw line: the new handler state,
the shared usage, and the units sent to the data channel. -/
def HandlerResponsesStream (parse : String → Option ResponsesStreamEvent)
    (usage : Usage) (st : RespHandlerState) (rawStr : String) :
    RespHandlerState × Usage × List String :=
  if goStartsWith rawStr "event: " then
    ({ eventType := goTrimLead rawStr "event: ", eventBuffer := rawStr ++ "\n" }, usage, [])
  else if ¬ goStartsWith rawStr "data: " then
    if st.eventBuffer.data.length > 0 then
      ({ st with eventBuffer := st.eventBuffer ++ rawStr ++ "\n" }, usage, [])
    else (st, usage, [rawStr])
  else
    let dataLine := goTrimSpace (goTrimLead rawStr "data: ")
    if dataLine = "[DONE]" then
      if st.eventBuffer.data.length > 0 then
        ({ eventBuffer := "", eventType := "" }, usage, [st.eventBuffer])
      else (st, usage, [])
    else
      let usage2 :=
        match parse dataLine with
        | some ev =>
            if ev.etype = "response.completed" then
              match ev.response with
              | some r =>
                  (match r.usage with
                   | some u =>
                      ({ promptTokens := u.inputTokens
                         completionTokens := u.outputTokens
                         totalTokens := u.totalTokens } : Usage)
                   | none => usage)
              | none => usage
            else usage
        | none => usage
      if st.eventBuffer.data.length > 0 then
        if goEndsWith (st.eventBuffer ++ rawStr ++ "\n") "\n\n" then
          ({ eventBuffer := "", eventType := "" }, usage2,
            [st.eventBuffer ++ rawStr ++ "\n"])
        else ({ st with eventBuffer := st.eventBuffer ++ rawStr ++ "\n" }, usage2, [])
      else (st, usage2, [rawStr])

/-- Run `HandlerResponsesStream` over a line sequence from the fresh handler,
collecting every unit emitted to the data channel. -/
def runHandlerResponsesStream (parse : String → Option ResponsesStreamEvent)
    (lines : List String) : RespHandlerState × Usage × List String :=
  lines.foldl
    (fun acc line =>
      let r := HandlerResponsesStream parse acc.2.1 acc.1 line
      (r.1, r.2.1, acc.2.2 ++ r.2.2))
    ({ eventBuffer := "", eventType := "" },
      ({ promptTokens := 0, completionTokens := 0, totalTokens := 0 } : Usage), [])

/-- C6: the code's own comment says a buffered event is sent "when complete
(blank line)", and the spec says the buffered event is emitted once two
consecutive line terminators (a blank line) are observed — but the blank
line is handled by the non-data branch, which only appends to the buffer and
never runs the flush check, so the sequence event line / data line / blank
line emits nothing, although the buffer then ends with the blank-line
boundary. -/
theorem c6_blank_line_does_not_flush (parse : String → Option ResponsesStreamEvent) :
    (runHandlerResponsesStream parse
      ["event: response.created", "data: created-json", ""]).2.2 = [] ∧
    (runHandlerResponsesStream parse
      ["event: response.created", "data: created-json", ""]).1.eventBuffer
      = "event: response.created\ndata: created-json\n\n" := by
  constructor
  · rfl
  · rfl

/-- Embeds the line scan of `extractJSONFromSSE`. -/
def extractJSONLines : List String → String
  | [] => ""
  | line :: rest =>
      if goStartsWith (goTrimSpace line) "data: "
      then goTrimLead (goTrimSpace line) "data: "
      else extractJSONLines rest

/-- Embeds `extractJSONFromSSE`: first `data: `-prefixed line of the unit. -/
def extractJSONFromSSE (sseData : String) : String :=
  extractJSONLines (goSplitChar sseData '\n')

/-- Embeds `collectResponsesStreamResponse`: scan the received units for a
`response.completed` event (last one wins), copy its usage, and fail with
"no response received" when none was seen; a non-EOF stream error aborts
with `stream_read_failed`. -/
def collectResponsesStreamResponse (parse : String → Option ResponsesStreamEvent)
    (units : List String) (endc : StreamEnd) (usage : Usage) :
    Except String (ResponsesPayload × Usage) :=
  match endc with
  | StreamEnd.failure _ => Except.error "stream_read_failed"
  | _ =>
    let res := units.foldl
      (fun acc u =>
        if goTrimSpace u = "" then acc
        else if extractJSONFromSSE u = "" then acc
        else
          match parse (extractJSONFromSSE u) with
          | none => acc
          | some ev =>
              if ev.etype = "response.completed" then
                match ev.response with
                | some r =>
                    (some r,
                      match r.usage with
                      | some ru =>
                          ({ promptTokens := ru.inputTokens
                             completionTokens := ru.outputTokens
                             totalTokens := ru.totalTokens } : Usage)
                      | none => acc.2)
                | none => acc
              else acc)
      ((none : Option ResponsesPayload), usage)
    match res.1 with
    | some r => Except.ok (r, res.2)
    | none => Except.error "no response received"

/-- C7 counterexample: the Chat-path aggregator `collectStreamResponse` has
no "no response received" guard — a stream that closes without any terminal
completed payload still yields a success response (with empty content),
contradicting the claim that both aggregation paths fail. -/
theorem c7_counterexample :
    collectStreamResponse [] StreamEnd.closed "gpt-5"
      { promptTokens := 0, completionTokens := 0, totalTokens := 0 } 0
    = Except.ok
      { id := "", object := "chat.completion", created := 0, model := "gpt-5",
        choices := [{ index := 0
                      message := { role := "assistant", content := "" }
                      finishReason := "stop" }],
        usage := { promptTokens := 0, completionTokens := 0, totalTokens := 0 } } := rfl

/-- Does this unit make the Responses-path aggregator record a completed
response? -/
def unitYieldsCompleted (parse : String → Option ResponsesStreamEvent) (u : String) : Bool :=
  if goTrimSpace u = "" then false
  else if extractJSONFromSSE u = "" then false
  else
    match parse (extractJSONFromSSE u) with
    | some ev => ev.etype = "response.completed" && ev.response.isSome
    | none => false

/-- C7 amended: only the Responses-path aggregator fails with
"no response received" when the stream ends benignly without a completed
payload; the Chat-path aggregator instead returns an aggregated (possibly
empty) success response. -/
theorem c7_amended_no_response_guard :
    (∀ (parse : String → Option ResponsesStreamEvent) (units : List String)
        (endc : StreamEnd) (usage : Usage),
      (endc = StreamEnd.closed ∨ endc = StreamEnd.eofErr) →
      (∀ u ∈ units, unitYieldsCompleted parse u = false) →
      collectResponsesStreamResponse parse units endc usage
        = Except.error "no response received") ∧
    (∀ (chunks : List ChatCompletionStreamResponse) (endc : StreamEnd)
        (requestModel : String) (usage : Usage) (now : Int),
      (endc = StreamEnd.closed ∨ endc = StreamEnd.eofErr) →
      ∃ resp, collectStreamResponse chunks endc requestModel usage now = Except.ok resp) := by
  constructor
  · intro parse units endc usage hend hnone
    have hfold : units.foldl
        (fun acc u =>
          if goTrimSpace u = "" then acc
          else if extractJSONFromSSE u = "" then acc
          else
            match parse (extractJSONFromSSE u) with
            | none => acc
            | some ev =>
                if ev.etype = "response.completed" then
                  match ev.response with
                  | some r =>
                      (some r,
                        match r.usage with
                        | some ru =>
                            ({ promptTokens := ru.inputTokens
                               completionTokens := ru.outputTokens
                               totalTokens := ru.totalTokens } : Usage)
                        | none => acc.2)
                  | none => acc
                else acc)
        ((none : Option ResponsesPayload), usage)
        = ((none : Option ResponsesPayload), usage) := by
      induction units with
      | nil => rfl
      | cons u rest ih =>
        have hu := hnone u (List.mem_cons_self _ _)
        have hstep :
            (if goTrimSpace u = "" then ((none : Option ResponsesPayload), usage)
             else if extractJSONFromSSE u = "" then ((none : Option ResponsesPayload), usage)
             else
               match parse (extractJSONFromSSE u) with
               | none => ((none : Option ResponsesPayload), usage)
               | some ev =>
                   if ev.etype = "response.completed" then
                     match ev.response with
                     | some r =>
                         (some r,
                           match r.usage with
                           | some ru =>
                               ({ promptTokens := ru.inputTokens
                                  completionTokens := ru.outputTokens
                                  totalTokens := ru.totalTokens } : Usage)
                           | none => usage)
                     | none => ((none : Option ResponsesPayload), usage)
                   else ((none : Option ResponsesPayload), usage))
            = ((none : Option ResponsesPayload), usage) := by
          unfold unitYieldsCompleted at hu
          by_cases h1 : goTrimSpace u = ""
          · rw [if_pos h1]
          · rw [if_neg h1]
            rw [if_neg h1] at hu
            by_cases h2 : extractJSONFromSSE u = ""
            · rw [if_pos h2]
            · rw [if_neg h2]
              rw [if_neg h2] at hu
              cases hp : parse (extractJSONFromSSE u) with
              | none => rfl
              | some ev =>
                rw [hp] at hu
                dsimp only at hu ⊢
                by_cases h3 : ev.etype = "response.completed"
                · rw [if_pos h3]
                  simp only [h3] at hu
                  cases hr : ev.response with
                  | none => rfl
                  | some r =>
                    exfalso
                    rw [hr] at hu
                    simp at hu
                · rw [if_neg h3]
        show List.foldl _
            (if goTrimSpace u = "" then ((none : Option ResponsesPayload), usage)
             else _) rest = _
        rw [hstep]
        exact ih (fun u' hu' => hnone u' (List.mem_cons_of_mem _ hu'))
    rcases hend with hend | hend <;>
      (subst hend
       unfold collectResponsesStreamResponse
       rw [hfold])
  · intro chunks endc requestModel usage now hend
    rcases hend with hend | hend <;>
      (subst hend
       exact ⟨_, rfl⟩)

theorem c7_witness :
    ((StreamEnd.closed = StreamEnd.closed ∨ StreamEnd.closed = StreamEnd.eofErr) ∧
      collectResponsesStreamResponse (fun _ => none) ["data: x"] StreamEnd.closed
        { promptTokens := 0, completionTokens := 0, totalTokens := 0 }
      = Except.error "no response received") ∧
    ∃ resp, collectStreamResponse [] StreamEnd.eofErr "m"
        { promptTokens := 0, completionTokens := 0, totalTokens := 0 } 0
      = Except.ok resp := by
  refine ⟨⟨Or.inl rfl, ?_⟩, ?_⟩
  · refine c7_amended_no_response_guard.1 (fun _ => none) ["data: x"] StreamEnd.closed
      _ (Or.inl rfl) ?_
    intro u hu
    rw [List.mem_singleton] at hu
    subst hu
    rfl
  · exact c7_amended_no_response_guard.2 [] StreamEnd.eofErr "m" _ 0 (Or.inr rfl)

/-! ## OAuth2 token refresh (providers/codex oauth)

The network exchange of each attempt is abstracted as an oracle from the
attempt index to its outcome; `time.Now` enters as `now`, JWT account-id
extraction as an oracle.  `time.Sleep` is counted, not performed. -/

structure OAuth2Credentials where
  accessToken : String
  refreshToken : String
  clientID : String
  accountID : String
  expiresAt : Option Int
  tokenType : String
  scopes : List String
deriving Repr, DecidableEq

structure TokenRefreshResponse where
  idToken : String
  accessToken : String
  expiresIn : Int
  refreshToken : String
  tokenType : String
  scope : String
deriving Repr, DecidableEq

structure TokenRefreshError where
  error : String
  errorDescription : String
deriving Repr, DecidableEq

/-- What one refresh attempt observes: request-creation, send or read
failure; a non-2xx response (with the `TokenRefreshError` parse result); or
a 200 whose body parses (or not) as a `TokenRefreshResponse`. -/
inductive AttemptOutcome where
  | createErr (msg : String)
  | sendErr (msg : String)
  | readErr (msg : String)
  | httpErr (status : Int) (parsed : Option TokenRefreshError) (body : String)
  | okParseErr (msg : String)
  | okResp (t : TokenRefreshResponse)
deriving Repr, DecidableEq

/-- The fixed non-retryable error set of `isNonRetryableError`. -/
def nonRetryableErrors : List String :=
  ["invalid_grant", "invalid_client", "unauthorized_client", "access_denied",
   "unsupported_grant_type", "invalid_scope"]

/-- Embeds `isNonRetryableError`. -/
def isNonRetryableError (errorType : String) : Bool :=
  nonRetryableErrors.any (fun e => errorType = e)

/-- The `lastErr` message the loop records for a retryable outcome. -/
def outcomeErrMsg : AttemptOutcome → String
  | .createErr m => "failed to create refresh request: " ++ m
  | .sendErr m => "failed to send refresh request: " ++ m
  | .readErr m => "failed to read refresh response: " ++ m
  | .httpErr _ (some e) _ => "token refresh failed: " ++ e.error ++ " - " ++ e.errorDescription
  | .httpErr stc none body => "token refresh failed with status " ++ toString stc ++ ": " ++ body
  | .okParseErr m => "failed to parse refresh response: " ++ m
  | .okResp _ => ""

/-- Outcomes the loop retries (everything but a success and a non-2xx whose
parsed error code is non-retryable). -/
def retryableOutcome : AttemptOutcome → Bool
  | .createErr _ => true
  | .sendErr _ => true
  | .readErr _ => true
  | .httpErr _ (some e) _ => ! isNonRetryableError e.error
  | .httpErr _ none _ => true
  | .okParseErr _ => true
  | .okResp _ => false

/-- Embeds the credential update of a successful refresh. -/
def updateCredentials (jwtAccountID : String → String) (now : Int)
    (c : OAuth2Credentials) (t : TokenRefreshResponse) : OAuth2Credentials :=
  let c1 := { c with accessToken := t.accessToken }
  let c2 := if t.refreshToken ≠ "" then { c1 with refreshToken := t.refreshToken } else c1
  let c3 := if t.tokenType ≠ "" then { c2 with tokenType := t.tokenType } else c2
  let c4 :=
    if jwtAccountID t.accessToken ≠ "" then { c3 with accountID := jwtAccountID t.accessToken }
    else c3
  let c5 := if t.scope ≠ "" then { c4 with scopes := goSplitChar t.scope ' ' } else c4
  if t.expiresIn > 0 then { c5 with expiresAt := some (now + t.expiresIn) } else c5

/-- The observable trace of a `Refresh` call: attempts performed, backoff
sleeps performed, and the outcome. -/
structure RefreshTrace where
  attempts : Nat
  sleeps : Nat
  result : Except String OAuth2Credentials
deriving Repr

/-- Embeds the retry loop of `OAuth2Credentials.Refresh` (`attempt` is the
Go loop counter, `remaining` the iterations the `attempt <= maxRetries`
bound still allows). -/
def refreshAux (outcomes : Nat → AttemptOutcome) (jwtAccountID : String → String)
    (now : Int) (c : OAuth2Credentials) (maxRetries : Nat) :
    Nat → Nat → Nat → String → RefreshTrace
  | attempt, 0, sleeps, lastErr =>
      { attempts := attempt, sleeps := sleeps,
        result := Except.error
          ("token refresh failed after " ++ toString maxRetries ++ " retries: " ++ lastErr) }
  | attempt, r + 1, sleeps, _ =>
      let sleeps2 := if attempt > 0 then sleeps + 1 else sleeps
      match outcomes attempt with
      | .okResp t =>
          { attempts := attempt + 1, sleeps := sleeps2,
            result := Except.ok (updateCredentials jwtAccountID now c t) }
      | .httpErr stc (some e) body =>
          if isNonRetryableError e.error then
            { attempts := attempt + 1, sleeps := sleeps2,
              result := Except.error
                ("token refresh failed (non-retryable): " ++ e.error ++ " - "
                  ++ e.errorDescription) }
          else
            refreshAux outcomes jwtAccountID now c maxRetries (attempt + 1) r sleeps2
              (outcomeErrMsg (.httpErr stc (some e) body))
      | o => refreshAux outcomes jwtAccountID now c maxRetries (attempt + 1) r sleeps2
          (outcomeErrMsg o)

/-- Embeds `OAuth2Credentials.Refresh`. -/
def Refresh (outcomes : Nat → AttemptOutcome) (jwtAccountID : String → String)
    (now : Int) (c : OAuth2Credentials) (maxRetries : Nat) : RefreshTrace :=
  if c.refreshToken = "" then
    { attempts := 0, sleeps := 0, result := Except.error "refresh token is empty" }
  else refreshAux outcomes jwtAccountID now c maxRetries 0 (maxRetries + 1) 0 ""

theorem refreshAux_step (outcomes : Nat → AttemptOutcome) (jwtAccountID : String → String)
    (now : Int) (c : OAuth2Credentials) (maxRetries : Nat)
    (attempt r sleeps : Nat) (lastErr : String)
    (hretry : retryableOutcome (outcomes attempt) = true) :
    refreshAux outcomes jwtAccountID now c maxRetries attempt (r + 1) sleeps lastErr
      = refreshAux outcomes jwtAccountID now c maxRetries (attempt + 1) r
          (if attempt > 0 then sleeps + 1 else sleeps) (outcomeErrMsg (outcomes attempt)) := by
  cases ho : outcomes attempt with
  | createErr m => simp only [refreshAux, ho]
  | sendErr m => simp only [refreshAux, ho]
  | readErr m => simp only [refreshAux, ho]
  | httpErr stc parsed body =>
    cases parsed with
    | none => simp only [refreshAux, ho]
    | some e =>
      rw [ho] at hretry
      simp only [retryableOutcome, Bool.not_eq_true'] at hretry
      simp only [refreshAux, ho]
      rw [if_neg (by simp [hretry])]
  | okParseErr m => simp only [refreshAux, ho]
  | okResp t =>
    rw [ho] at hretry
    simp [retryableOutcome] at hretry

theorem refreshAux_tail_nonretryable (outcomes : Nat → AttemptOutcome)
    (jwtAccountID : String → String) (now : Int) (c : OAuth2Credentials) (maxRetries : Nat) :
    ∀ (k attempt r sleeps : Nat) (lastErr : String) (stc : Int)
      (e : TokenRefreshError) (body : String),
      1 ≤ attempt → k < r →
      (∀ j, attempt ≤ j → j < attempt + k → retryableOutcome (outcomes j) = true) →
      outcomes (attempt + k) = .httpErr stc (some e) body →
      isNonRetryableError e.error = true →
      refreshAux outcomes jwtAccountID now c maxRetries attempt r sleeps lastErr
        = { attempts := attempt + k + 1, sleeps := sleeps + k + 1,
            result := Except.error
              ("token refresh failed (non-retryable): " ++ e.error ++ " - "
                ++ e.errorDescription) } := by
  intro k
  induction k with
  | zero =>
    intro attempt r sleeps lastErr stc e body h1 hr _ ho hnr
    match r, hr with
    | r' + 1, _ =>
      have ho0 : outcomes attempt = .httpErr stc (some e) body := by simpa using ho
      simp only [refreshAux, ho0, hnr, if_pos (Nat.lt_of_lt_of_le Nat.zero_lt_one h1)]
      rfl
  | succ k ih =>
    intro attempt r sleeps lastErr stc e body h1 hr hran ho hnr
    match r, hr with
    | r' + 1, hr =>
      have hretry : retryableOutcome (outcomes attempt) = true :=
        hran attempt (Nat.le_refl _) (by omega)
      rw [refreshAux_step _ _ _ _ _ _ _ _ _ hretry,
        if_pos (Nat.lt_of_lt_of_le Nat.zero_lt_one h1)]
      have hres := ih (attempt + 1) r' (sleeps + 1) (outcomeErrMsg (outcomes attempt))
        stc e body (by omega) (by omega)
        (fun j hj1 hj2 => hran j (by omega) (by omega))
        (by rw [show attempt + 1 + k = attempt + (k + 1) from by omega]; exact ho) hnr
      rw [hres]
      congr 1 <;> omega

theorem refreshAux_tail_exhaust (outcomes : Nat → AttemptOutcome)
    (jwtAccountID : String → String) (now : Int) (c : OAuth2Credentials) (maxRetries : Nat) :
    ∀ (r attempt sleeps : Nat) (lastErr : String),
      (∀ j, attempt ≤ j → j < attempt + r → retryableOutcome (outcomes j) = true) →
      ∃ msg sl,
        refreshAux outcomes jwtAccountID now c maxRetries attempt r sleeps lastErr
          = { attempts := attempt + r, sleeps := sl, result := Except.error msg } := by
  intro r
  induction r with
  | zero =>
    intro attempt sleeps lastErr _
    exact ⟨_, sleeps, rfl⟩
  | succ r ih =>
    intro attempt sleeps lastErr hran
    have hretry : retryableOutcome (outcomes attempt) = true :=
      hran attempt (Nat.le_refl _) (by omega)
    rw [refreshAux_step _ _ _ _ _ _ _ _ _ hretry]
    obtain ⟨msg, sl, hres⟩ := ih (attempt + 1) (if attempt > 0 then sleeps + 1 else sleeps)
      (outcomeErrMsg (outcomes attempt)) (fun j hj1 hj2 => hran j (by omega) (by omega))
    refine ⟨msg, sl, ?_⟩
    rw [hres]
    congr 1
    omega

/-- C8: a refresh attempt whose non-2xx response parses to a non-retryable
error code (such as invalid_grant) ends `Refresh` right there: exactly that
attempt is the last, no backoff sleep follows it and no further attempt is
made (`sleeps = k` counts only the backoffs before attempts `1..k`); any run
whose attempts all fail retryably is retried until the attempt ceiling
`maxRetries + 1` is exhausted and then fails. -/
theorem c8_refresh_nonretryable_short_circuit
    (outcomes : Nat → AttemptOutcome) (jwtAccountID : String → String) (now : Int)
    (c : OAuth2Credentials) (maxRetries : Nat) (hrt : ¬ c.refreshToken = "") :
    (∀ (k : Nat) (stc : Int) (e : TokenRefreshError) (body : String),
      k ≤ maxRetries →
      outcomes k = .httpErr stc (some e) body →
      isNonRetryableError e.error = true →
      (∀ j, j < k → retryableOutcome (outcomes j) = true) →
      Refresh outcomes jwtAccountID now c maxRetries
        = { attempts := k + 1, sleeps := k,
            result := Except.error
              ("token refresh failed (non-retryable): " ++ e.error ++ " - "
                ++ e.errorDescription) }) ∧
    ((∀ j, j ≤ maxRetries → retryableOutcome (outcomes j) = true) →
      ∃ msg sl, Refresh outcomes jwtAccountID now c maxRetries
        = { attempts := maxRetries + 1, sleeps := sl, result := Except.error msg }) := by
  constructor
  · intro k stc e body hk ho hnr hpre
    unfold Refresh
    rw [if_neg hrt]
    cases k with
    | zero =>
      simp only [refreshAux, ho]
      simp only [hnr]
      rfl
    | succ k' =>
      have hretry : retryableOutcome (outcomes 0) = true := hpre 0 (by omega)
      have h1 : maxRetries + 1 = (maxRetries - 1 + 1) + 1 := by omega
      rw [h1, refreshAux_step _ _ _ _ _ _ _ _ _ hretry]
      have hres := refreshAux_tail_nonretryable outcomes jwtAccountID now c maxRetries
        k' 1 (maxRetries - 1 + 1) 0 (outcomeErrMsg (outcomes 0)) stc e body
        (Nat.le_refl _) (by omega)
        (fun j hj1 hj2 => hpre j (by omega))
        (by rw [show 1 + k' = k' + 1 from by omega]; exact ho) hnr
      exact hres.trans (by
        simp only [RefreshTrace.mk.injEq, and_true]
        omega)
  · intro hall
    unfold Refresh
    rw [if_neg hrt]
    obtain ⟨msg, sl, hres⟩ := refreshAux_tail_exhaust outcomes jwtAccountID now c maxRetries
      (maxRetries + 1) 0 0 "" (fun j hj1 hj2 => hall j (by omega))
    rw [Nat.zero_add] at hres
    exact ⟨msg, sl, hres⟩

theorem c8_witness :
    Refresh (fun _ => AttemptOutcome.httpErr 400
        (some { error := "invalid_grant", errorDescription := "expired" }) "body")
      (fun _ => "") 0
      { accessToken := "a", refreshToken := "r", clientID := "", accountID := "",
        expiresAt := none, tokenType := "", scopes := [] } 3
    = { attempts := 1, sleeps := 0,
        result := Except.error
          ("token refresh failed (non-retryable): " ++ "invalid_grant" ++ " - "
            ++ "expired") } :=
  (c8_refresh_nonretryable_short_circuit
      (fun _ => AttemptOutcome.httpErr 400
        (some { error := "invalid_grant", errorDescription := "expired" }) "body")
      (fun _ => "") 0
      { accessToken := "a", refreshToken := "r", clientID := "", accountID := "",
        expiresAt := none, tokenType := "", scopes := [] } 3
      (by decide)).1 0 400
    { error := "invalid_grant", errorDescription := "expired" } "body"
    (by omega) rfl (by decide) (fun j hj => absurd hj (Nat.not_lt_zero j))

/-! ## Error-message token scrubbing (providers/codex base.go RequestErrorHandle) -/

/-- Fuel-indexed worker for `strings.Replace(s, pat, nw, -1)` on character
lists: at each position, a match of `pat` is replaced by `nw` and the scan
resumes after it, otherwise the character is kept.  The fuel only needs to
bound the length of `s` (each step consumes at least one character). -/
def replaceAllAux (pat nw : List Char) : Nat → List Char → List Char
  | _, [] => []
  | 0, _ :: _ => []
  | fuel + 1, c :: r =>
    if listStarts (c :: r) pat && !pat.isEmpty then
      nw ++ replaceAllAux pat nw fuel ((c :: r).drop pat.length)
    else
      c :: replaceAllAux pat nw fuel r

/-- Embeds Go's `strings.Replace(s, pat, nw, -1)` (all occurrences,
left-to-right, non-overlapping) on character lists. -/
def replaceAll (pat nw s : List Char) : List Char := replaceAllAux pat nw s.length s

theorem hasSub_xchain (p : Char) (ps : List Char) (hp : p ≠ 'x') :
    ∀ (a b : List Char), (∀ c ∈ a, c = 'x') →
      listHasSub (a ++ b) (p :: ps) = listHasSub b (p :: ps) := by
  intro a
  induction a with
  | nil => intro b _; rfl
  | cons x a2 ih =>
    intro b hx
    have hxx : x = 'x' := hx x (by simp)
    have h1 : listStarts (x :: (a2 ++ b)) (p :: ps) = false := by
      simp only [listStarts, Bool.and_eq_false_iff]
      left
      simp [hxx]
      exact fun hh => hp hh.symm
    show (listStarts (x :: (a2 ++ b)) (p :: ps) || listHasSub (a2 ++ b) (p :: ps)) = _
    rw [h1, Bool.false_or]
    exact ih b (fun c hc => hx c (by simp [hc]))

theorem replaceAllAux_listStarts (pat nw : List Char) (hnw1 : nw ≠ [])
    (hnwx : ∀ c ∈ nw, c = 'x') :
    ∀ (fuel : Nat) (s q : List Char), (∀ c ∈ q, c ≠ 'x') →
      listStarts (replaceAllAux pat nw fuel s) q = true → listStarts s q = true := by
  intro fuel
  induction fuel with
  | zero =>
    intro s q hq hst
    cases s with
    | nil => exact hst
    | cons c r =>
      cases q with
      | nil => rfl
      | cons a q2 => exact absurd hst (by simp [replaceAllAux, listStarts])
  | succ fuel ih =>
    intro s q hq hst
    cases s with
    | nil => exact hst
    | cons c r =>
      simp only [replaceAllAux] at hst
      by_cases h : (listStarts (c :: r) pat && !pat.isEmpty) = true
      · rw [if_pos h] at hst
        cases q with
        | nil => rfl
        | cons a q2 =>
          cases hnwE : nw with
          | nil => exact absurd hnwE hnw1
          | cons x1 nw2 =>
            rw [hnwE] at hst
            have hx1 : x1 = 'x' := hnwx x1 (by rw [hnwE]; simp)
            have ha : a ≠ 'x' := hq a (by simp)
            simp only [List.cons_append, listStarts, Bool.and_eq_true, beq_iff_eq] at hst
            exact absurd (hx1 ▸ hst.1) (fun hh => ha hh.symm)
      · rw [if_neg h] at hst
        cases q with
        | nil => rfl
        | cons a q2 =>
          simp only [listStarts, Bool.and_eq_true] at hst ⊢
          refine ⟨hst.1, ?_⟩
          exact ih r q2 (fun c hc => hq c (by simp [hc])) hst.2

theorem replaceAllAux_no_token (pat nw : List Char) (hp : pat ≠ [])
    (hpx : ∀ c ∈ pat, c ≠ 'x') (hnw1 : nw ≠ []) (hnwx : ∀ c ∈ nw, c = 'x') :
    ∀ (fuel : Nat) (s : List Char),
      listHasSub (replaceAllAux pat nw fuel s) pat = false := by
  have hnilcase : listHasSub ([] : List Char) pat = false := by
    show listStarts [] pat = false
    cases pat with
    | nil => exact absurd rfl hp
    | cons p ps => rfl
  intro fuel
  induction fuel with
  | zero =>
    intro s
    cases s with
    | nil => exact hnilcase
    | cons c r => exact hnilcase
  | succ fuel ih =>
    intro s
    cases s with
    | nil => exact hnilcase
    | cons c r =>
      by_cases h : (listStarts (c :: r) pat && !pat.isEmpty) = true
      · simp only [replaceAllAux, if_pos h]
        cases hpE : pat with
        | nil => exact absurd hpE hp
        | cons p ps =>
          have hpne : p ≠ 'x' := hpx p (by rw [hpE]; simp)
          rw [hasSub_xchain p ps hpne nw _ hnwx]
          rw [← hpE]
          exact ih _
      · simp only [replaceAllAux, if_neg h]
        have hrest : listHasSub (replaceAllAux pat nw fuel r) pat = false := ih r
        have hhead : listStarts (c :: replaceAllAux pat nw fuel r) pat = false := by
          cases hst : listStarts (c :: replaceAllAux pat nw fuel r) pat with
          | false => rfl
          | true =>
            have hst2 : listStarts (replaceAllAux pat nw (fuel + 1) (c :: r)) pat = true := by
              simp only [replaceAllAux, if_neg h]
              exact hst
            have hst3 : listStarts (c :: r) pat = true :=
              replaceAllAux_listStarts pat nw hnw1 hnwx (fuel + 1) (c :: r) pat hpx hst2
            have hpiE : pat.isEmpty = false := by
              cases hpE : pat with
              | nil => exact absurd hpE hp
              | cons p ps => rfl
            exact absurd (by rw [hst3, hpiE]; rfl) h
        show (listStarts (c :: replaceAllAux pat nw fuel r) pat
          || listHasSub (replaceAllAux pat nw fuel r) pat) = false
        rw [hhead, hrest]
        rfl

theorem replaceAll_no_token (pat nw s : List Char) (hp : pat ≠ [])
    (hpx : ∀ c ∈ pat, c ≠ 'x') (hnw1 : nw ≠ []) (hnwx : ∀ c ∈ nw, c = 'x') :
    listHasSub (replaceAll pat nw s) pat = false :=
  replaceAllAux_no_token pat nw hp hpx hnw1 hnwx s.length s

/-- Embeds `strings.Replace(s, old, nw, -1)` on strings. -/
def goReplaceAll (s old nw : String) : String := ⟨replaceAll old.data nw.data s.data⟩

/-- The fields of `types.OpenAIError` used by `RequestErrorHandle`. -/
structure OpenAIError where
  code : String
  message : String
  etype : String
deriving Repr, DecidableEq

/-- The fields of `CodexErrorResponse.Error` used by `RequestErrorHandle`. -/
structure CodexErrInfo where
  code : String
  message : String
  etype : String
  resetsInSeconds : Int
deriving Repr, DecidableEq

/-- The scrub step: when the access token is non-empty, all its occurrences
in the message are replaced by the marker. -/
def scrubMsg (accessToken msg : String) : String :=
  if accessToken ≠ "" then goReplaceAll msg accessToken "xxxxx" else msg

/-- Embeds the fallback branch of `RequestErrorHandle` (standard OpenAI
error payload). -/
def fallbackOpenAIError (accessToken : String) (openaiParse : Option OpenAIError) :
    Option OpenAIError :=
  match openaiParse with
  | none => none
  | some oe =>
      if oe.message = "" then none
      else some { oe with message := scrubMsg accessToken oe.message }

/-- The Codex-payload branch of `RequestErrorHandle`: taken when the body
parses as a `CodexErrorResponse` with a non-empty message, otherwise falls
through to the standard OpenAI payload. -/
def codexBranch (accessToken : String) (codexParse : Option CodexErrInfo)
    (openaiParse : Option OpenAIError) : Option OpenAIError :=
  match codexParse with
  | some ce =>
      if ce.message ≠ "" then
        some { code := ce.code, message := scrubMsg accessToken ce.message, etype := ce.etype }
      else fallbackOpenAIError accessToken openaiParse
  | none => fallbackOpenAIError accessToken openaiParse

/-- Embeds `RequestErrorHandle`: the body read and the two `json.Unmarshal`
calls enter as oracles (`readFails`, `codexParse`, `openaiParse`); the
rate-limit branch only logs and is elided. -/
def RequestErrorHandle (accessToken : String) (readFails : Bool)
    (codexParse : Option CodexErrInfo) (openaiParse : Option OpenAIError) :
    Option OpenAIError :=
  if readFails then none
  else codexBranch accessToken codexParse openaiParse

theorem scrubMsg_no_token (accessToken msg : String)
    (hne : accessToken.data ≠ []) (hx : ∀ c ∈ accessToken.data, c ≠ 'x') :
    listHasSub (scrubMsg accessToken msg).data accessToken.data = false := by
  have hne2 : ¬ accessToken = "" := fun he => hne (by rw [he])
  rw [scrubMsg, if_pos hne2]
  exact replaceAll_no_token accessToken.data ("xxxxx".data) msg.data hne hx
    (by decide) (by decide)

/-- C9 counterexample: with access token "xx" and upstream message "xxx",
every occurrence of the token is replaced with "xxxxx" (yielding "xxxxxx"),
yet the surfaced message still contains the token verbatim. -/
theorem c9_counterexample :
    RequestErrorHandle "xx" false
        (some { code := "rate_limited", message := "xxx", etype := "requests",
                resetsInSeconds := 0 })
        none
      = some { code := "rate_limited", message := "xxxxxx", etype := "requests" }
    ∧ listHasSub ("xxxxxx".data) ("xx".data) = true
    ∧ ("xx" : String) ≠ "" := ⟨rfl, by decide, by decide⟩

/-- C9 (amended): whenever `RequestErrorHandle` surfaces an error and the
access token is non-empty and contains no character x, the surfaced message
does not contain the token as a substring (the marker is all x, so a token
free of x can neither survive the replacement nor be re-created by it). -/
theorem c9_amended_token_scrubbed (accessToken : String) (readFails : Bool)
    (codexParse : Option CodexErrInfo) (openaiParse : Option OpenAIError)
    (e : OpenAIError)
    (hne : accessToken.data ≠ []) (hx : ∀ c ∈ accessToken.data, c ≠ 'x')
    (h : RequestErrorHandle accessToken readFails codexParse openaiParse = some e) :
    listHasSub e.message.data accessToken.data = false := by
  have hfb : ∀ (op : Option OpenAIError), fallbackOpenAIError accessToken op = some e →
      listHasSub e.message.data accessToken.data = false := by
    intro op hop
    cases op with
    | none => exact absurd hop (by simp [fallbackOpenAIError])
    | some oe =>
      by_cases hm : oe.message = ""
      · rw [fallbackOpenAIError, if_pos hm] at hop
        exact absurd hop (by simp)
      · rw [fallbackOpenAIError, if_neg hm] at hop
        injection hop with hop
        subst hop
        exact scrubMsg_no_token accessToken oe.message hne hx
  cases readFails with
  | true => exact absurd h (by simp [RequestErrorHandle])
  | false =>
    cases codexParse with
    | none => exact hfb openaiParse h
    | some ce =>
      by_cases hm : ¬ ce.message = ""
      · rw [RequestErrorHandle, if_neg (by simp), codexBranch, if_pos hm] at h
        injection h with h
        subst h
        exact scrubMsg_no_token accessToken ce.message hne hx
      · rw [RequestErrorHandle, if_neg (by simp), codexBranch, if_neg hm] at h
        exact hfb openaiParse h

theorem c9_amended_witness :
    listHasSub
      ((RequestErrorHandle "tok" false
          (some { code := "c", message := "bad tok here", etype := "t", resetsInSeconds := 0 })
          none).getD { code := "", message := "", etype := "" }).message.data
      ("tok" : String).data = false :=
  c9_amended_token_scrubbed "tok" false
    (some { code := "c", message := "bad tok here", etype := "t", resetsInSeconds := 0 })
    none { code := "c", message := "bad xxxxx here", etype := "t" }
    (by decide) (by decide) rfl

/-! ## System-message merging (providers/codex responses.go mergeSystemInputMessagesForCodex) -/

/-- One element of a parsed `[]types.ContentResponses` list (the `Type` and
`Text` fields used by the merge code). -/
structure ContentPart where
  ctype : String
  text : String
deriving Repr, DecidableEq

/-- The shape of `types.InputResponses.Content` (an `interface` value in
Go): absent, a plain string, or a parsed content-part list (`ParseContent`
failures do not arise for these shapes and are not modelled). -/
inductive InputContent where
  | nullC
  | str (s : String)
  | parts (l : List ContentPart)
deriving Repr, DecidableEq

/-- The fields of `types.InputResponses` used by the merge code. -/
structure InputResponses where
  itype : String
  role : String
  content : InputContent
deriving Repr, DecidableEq

/-- The content-part types whose text the merge code treats as textual
(`types.ContentTypeInputText`, `types.ContentTypeOutputText`, or empty; the
constant values follow the one-api `types` package, which is outside the
provided sources). -/
def isTextualContentType (t : String) : Bool :=
  t == "input_text" || t == "output_text" || t == ""

/-- Embeds `extractInputMessageText`. -/
def extractInputMessageText (input : InputResponses) : String :=
  match input.content with
  | InputContent.nullC => ""
  | InputContent.str s => s
  | InputContent.parts l =>
      if l.isEmpty then ""
      else goJoin "\n"
        ((l.filter (fun c => isTextualContentType c.ctype && goTrimSpace c.text != "")).map
          (fun c => c.text))

/-- Embeds `isSystemInputMessage` (`types.ChatMessageRoleSystem` is
"system", `types.ChatMessageRoleDeveloper` is "developer",
`types.InputTypeMessage` is "message"). -/
def isSystemInputMessage (input : InputResponses) : Bool :=
  if input.itype != "" && input.itype != "message" then false
  else
    goToLower (goTrimSpace input.role) == "system"
      || goToLower (goTrimSpace input.role) == "developer"

/-- Embeds `isMergeableInputMessage` (`types.ChatMessageRoleUser` is
"user"). -/
def isMergeableInputMessage (input : InputResponses) : Bool :=
  if input.itype != "" && input.itype != "message" then false
  else goToLower (goTrimSpace input.role) == "user"

/-- The body of `prependSystemTextToInputMessage` after its early return
(`st` is the trimmed, non-empty system text). -/
def prependCore (input : InputResponses) (st : String) : InputResponses :=
  match input.content with
  | InputContent.str content =>
      if goTrimSpace content == "" then { input with content := InputContent.str st }
      else { input with content := InputContent.str (st ++ "\n\n" ++ content) }
  | InputContent.nullC => { input with content := InputContent.str st }
  | InputContent.parts [] => { input with content := InputContent.str st }
  | InputContent.parts (c0 :: rest) =>
      if isTextualContentType c0.ctype then
        if goTrimSpace c0.text == "" then
          { input with content := InputContent.parts ({ c0 with text := st } :: rest) }
        else
          { input with
            content := InputContent.parts ({ c0 with text := st ++ "\n\n" ++ c0.text } :: rest) }
      else
        { input with
          content := InputContent.parts ({ ctype := "input_text", text := st } :: c0 :: rest) }

/-- Embeds `prependSystemTextToInputMessage`. -/
def prependSystemTextToInputMessage (input : InputResponses) (systemText : String) :
    InputResponses :=
  if goTrimSpace systemText == "" then input
  else prependCore input (goTrimSpace systemText)

/-- The synthetic trailing user message holding left-over system text. -/
def syntheticUserMessage (text : String) : InputResponses :=
  { itype := "message", role := "user",
    content := InputContent.parts [{ ctype := "input_text", text := text }] }

/-- One iteration of the `mergeSystemInputMessagesForCodex` loop over
`(merged, pendingSystemText)`. -/
def mergeStep (st : List InputResponses × List String) (input : InputResponses) :
    List InputResponses × List String :=
  if isSystemInputMessage input then
    if goTrimSpace (extractInputMessageText input) != "" then
      (st.1, st.2 ++ [goTrimSpace (extractInputMessageText input)])
    else (st.1, st.2)
  else if !st.2.isEmpty && isMergeableInputMessage input then
    (st.1 ++ [prependSystemTextToInputMessage input (goJoin "\n\n" st.2)], [])
  else (st.1 ++ [input], st.2)

/-- The epilogue of the loop: left-over pending text becomes a synthetic
trailing user message. -/
def mergeFinish (st : List InputResponses × List String) : List InputResponses :=
  if st.2.isEmpty then st.1
  else st.1 ++ [syntheticUserMessage (goJoin "\n\n" st.2)]

/-- Embeds `mergeSystemInputMessagesForCodex` on a parsed input list (when
`ParseInput` fails or yields no inputs the request is left unchanged, which
coincides with this function on the empty list). -/
def mergeSystemInputMessagesForCodex (inputs : List InputResponses) : List InputResponses :=
  mergeFinish (inputs.foldl mergeStep ([], []))

/-- Spec-side recursion, transcribing the specification sentence: trimmed
system/developer text accumulates (blank-line separated) and is prepended
into the next user message; with no eligible following message it becomes a
synthetic trailing user message; all other messages pass through in
order. -/
def mergeSpecRec (pending : List String) : List InputResponses → List InputResponses
  | [] =>
      if pending.isEmpty then []
      else [syntheticUserMessage (goJoin "\n\n" pending)]
  | input :: rest =>
      if isSystemInputMessage input then
        mergeSpecRec
          (if goTrimSpace (extractInputMessageText input) != "" then
            pending ++ [goTrimSpace (extractInputMessageText input)]
          else pending) rest
      else if !pending.isEmpty && isMergeableInputMessage input then
        prependSystemTextToInputMessage input (goJoin "\n\n" pending) :: mergeSpecRec [] rest
      else input :: mergeSpecRec pending rest

theorem mergeFold_eq_specRec :
    ∀ (inputs : List InputResponses) (merged : List InputResponses) (pending : List String),
      mergeFinish (inputs.foldl mergeStep (merged, pending)) = merged ++ mergeSpecRec pending inputs := by
  intro inputs
  induction inputs with
  | nil =>
    intro merged pending
    show mergeFinish (merged, pending) = merged ++ mergeSpecRec pending []
    by_cases hp : pending.isEmpty = true
    · show (if pending.isEmpty then merged else _) = merged ++ _
      rw [if_pos hp, mergeSpecRec, if_pos hp, List.append_nil]
    · show (if pending.isEmpty then merged else merged ++ [syntheticUserMessage (goJoin "\n\n" pending)]) = merged ++ _
      rw [if_neg hp, mergeSpecRec, if_neg hp]
  | cons input rest ih =>
    intro merged pending
    show mergeFinish (List.foldl mergeStep (mergeStep (merged, pending) input) rest)
      = merged ++ mergeSpecRec pending (input :: rest)
    by_cases hs : isSystemInputMessage input = true
    · by_cases ht : (goTrimSpace (extractInputMessageText input) != "") = true
      · have hstep : mergeStep (merged, pending) input
            = (merged, pending ++ [goTrimSpace (extractInputMessageText input)]) := by
          rw [mergeStep, if_pos hs, if_pos ht]
        rw [hstep, ih]
        rw [mergeSpecRec, if_pos hs, if_pos ht]
      · have hstep : mergeStep (merged, pending) input = (merged, pending) := by
          rw [mergeStep, if_pos hs, if_neg ht]
        rw [hstep, ih]
        rw [mergeSpecRec, if_pos hs, if_neg ht]
    · by_cases hm : (!pending.isEmpty && isMergeableInputMessage input) = true
      · have hstep : mergeStep (merged, pending) input
            = (merged ++ [prependSystemTextToInputMessage input (goJoin "\n\n" pending)], []) := by
          rw [mergeStep, if_neg hs, if_pos hm]
        rw [hstep, ih]
        rw [mergeSpecRec, if_neg hs, if_pos hm, List.append_assoc]
        rfl
      · have hstep : mergeStep (merged, pending) input = (merged ++ [input], pending) := by
          rw [mergeStep, if_neg hs, if_neg hm]
        rw [hstep, ih]
        rw [mergeSpecRec, if_neg hs, if_neg hm, List.append_assoc]
        rfl

theorem prependCore_itype (input : InputResponses) (st : String) :
    (prependCore input st).itype = input.itype ∧ (prependCore input st).role = input.role := by
  cases hc : input.content with
  | nullC => simp [prependCore, hc]
  | str s =>
    simp only [prependCore, hc]
    split <;> exact ⟨rfl, rfl⟩
  | parts l =>
    cases l with
    | nil => simp [prependCore, hc]
    | cons c0 rest =>
      simp only [prependCore, hc]
      split
      · split <;> exact ⟨rfl, rfl⟩
      · exact ⟨rfl, rfl⟩

theorem prepend_not_system (input : InputResponses) (t : String)
    (hns : isSystemInputMessage input = false) :
    isSystemInputMessage (prependSystemTextToInputMessage input t) = false := by
  rw [prependSystemTextToInputMessage]
  by_cases he : (goTrimSpace t == "") = true
  · rw [if_pos he]; exact hns
  · rw [if_neg he]
    obtain ⟨h1, h2⟩ := prependCore_itype input (goTrimSpace t)
    rw [isSystemInputMessage, h1, h2]
    rw [isSystemInputMessage] at hns
    exact hns

theorem specRec_no_system (inputs : List InputResponses) :
    ∀ (pending : List String) (m : InputResponses), m ∈ mergeSpecRec pending inputs →
      isSystemInputMessage m = false := by
  induction inputs with
  | nil =>
    intro pending m hm
    rw [mergeSpecRec] at hm
    by_cases hp : pending.isEmpty = true
    · rw [if_pos hp] at hm
      exact absurd hm (List.not_mem_nil m)
    · rw [if_neg hp] at hm
      rw [List.mem_singleton] at hm
      subst hm
      rfl
  | cons input rest ih =>
    intro pending m hm
    rw [mergeSpecRec] at hm
    by_cases hs : isSystemInputMessage input = true
    · rw [if_pos hs] at hm
      exact ih _ m hm
    · rw [if_neg hs] at hm
      by_cases hmg : (!pending.isEmpty && isMergeableInputMessage input) = true
      · rw [if_pos hmg] at hm
        rw [List.mem_cons] at hm
        cases hm with
        | inl h =>
          subst h
          exact prepend_not_system input _ (Bool.not_eq_true _ ▸ Bool.of_not_eq_true hs)
        | inr h => exact ih _ m h
      · rw [if_neg hmg] at hm
        rw [List.mem_cons] at hm
        cases hm with
        | inl h => subst h; exact Bool.of_not_eq_true hs
        | inr h => exact ih _ m h

/-- C2: the Go fold equals the spec-side recursion (pending system text is
merged into the next user message, left-over text becomes a synthetic
trailing user message, other messages pass through in order), and no
system/developer message remains in the merged input list. -/
theorem c2_merge_system_into_next_user (inputs : List InputResponses) :
    mergeSystemInputMessagesForCodex inputs = mergeSpecRec [] inputs
    ∧ ∀ m ∈ mergeSystemInputMessagesForCodex inputs, isSystemInputMessage m = false := by
  have he : mergeSystemInputMessagesForCodex inputs = mergeSpecRec [] inputs := by
    rw [mergeSystemInputMessagesForCodex, mergeFold_eq_specRec inputs [] []]
    rfl
  refine ⟨he, ?_⟩
  intro m hm
  rw [he] at hm
  exact specRec_no_system inputs [] m hm

theorem c2_witness :
    mergeSystemInputMessagesForCodex
        [{ itype := "", role := "system", content := InputContent.str "Be brief." },
         { itype := "message", role := "user", content := InputContent.str "hi" }]
      = mergeSpecRec []
        [{ itype := "", role := "system", content := InputContent.str "Be brief." },
         { itype := "message", role := "user", content := InputContent.str "hi" }]
    ∧ isSystemInputMessage
        { itype := "message", role := "user",
          content := InputContent.str ("Be brief." ++ "\n\n" ++ "hi") } = false :=
  ⟨(c2_merge_system_into_next_user _).1,
   (c2_merge_system_into_next_user
      [{ itype := "", role := "system", content := InputContent.str "Be brief." },
       { itype := "message", role := "user", content := InputContent.str "hi" }]).2
      _ (by decide)⟩
